import Mathlib

/-!
Verification of the mlx notebook document/output converter
(vscode-mlx-notebook).  The TypeScript sources are shallowly embedded
over `List Char` strings:

* `src/documentBuilder.ts` — `buildDocumentXml`, `buildParagraph`,
  `buildSectionBreak`, `parseMarkdownRuns`, `getMarkupStyle`,
  `removeHeadingMarker`, `escapeXml`;
* `src/documentParser.ts` — `parseDocument`, `getTextFromRun`,
  `formatRun`, `getStyle`, `getRuns`, the merge post-pass;
* `src/outputBuilder.ts` — `buildOutputXml`;
* `src/outputParser.ts` — `parseOutputs`, `extractIndexes`;
* `src/parser.ts` — `parseMlx`.

The XML library (fast-xml-parser) sits between the builder and the
parser.  It is modelled structurally: the builder produces a list of
structured paragraphs (`BPara`), and `libPara` maps each built
paragraph to the record shape the XML library hands back to the parser
when it re-reads the rendered XML.  The character-level behaviour of
the library that the claims depend on is modelled faithfully and
proved, not assumed: entity escaping (`xmlEscape`/`xmlUnescape`) and
CDATA section lexing (`cdataEscape`/`cdataLex`, with adjacent CDATA
sections of one text node concatenated, per XML character-data
semantics).  JavaScript `String(x)` on a plain object is the literal
text `[object Object]` (`jsObjectString` below); truthiness of a
JavaScript string is non-emptiness.
-/

/-- Strings are embedded as lists of characters. -/
abbrev Str := List Char

/-- Cell kind, from the `'code' | 'markup'` union in the sources. -/
inductive CellKind where
  | code : CellKind
  | markup : CellKind
deriving DecidableEq, Repr

/-- A parsed variable output record (`MlxOutput` in `types.ts`).
`rows`/`columns` are modelled as naturals (the sources only ever build
them from non-negative counts). -/
structure MlxOutput where
  type : Str
  name : Str
  value : Str
  rows : Nat
  columns : Nat
deriving DecidableEq, Repr

/-- One bundle of region outputs (`MlxRegionOutputs` in `types.ts`;
the `variables` field is named `vars` because `variables` is a reserved
word in Lean). -/
structure MlxRegion where
  vars : List MlxOutput
  figures : List Str
  text : List Str
deriving DecidableEq, Repr

/-- A notebook cell (`MlxCell` in `types.ts`); the three output fields
are absent (`none`) until `parseMlx` attaches them. -/
structure MlxCell where
  kind : CellKind
  content : Str
  outputs : Option (List MlxOutput) := none
  figures : Option (List Str) := none
  textOutput : Option Str := none
deriving DecidableEq, Repr

/-- Shorthand for a bare cell as produced by `parseDocument`. -/
def mkCell (k : CellKind) (c : Str) : MlxCell := ⟨k, c, none, none, none⟩

/-- JavaScript `content.split('\n')`. -/
def splitNl : Str → List Str
  | [] => [[]]
  | c :: t =>
    if c = '\n' then [] :: splitNl t
    else (c :: (splitNl t).headI) :: (splitNl t).tail

/-- JavaScript `lines.join('\n')`. -/
def joinNl : List Str → Str
  | [] => []
  | [s] => s
  | s :: ss => s ++ '\n' :: joinNl ss

theorem splitNl_ne_nil (s : Str) : splitNl s ≠ [] := by
  cases s with
  | nil => simp [splitNl]
  | cons c t =>
    rw [splitNl]
    split <;> simp

theorem joinNl_splitNl (s : Str) : joinNl (splitNl s) = s := by
  induction s with
  | nil => simp [splitNl, joinNl]
  | cons c t ih =>
    rcases h : splitNl t with _ | ⟨s₁, ss⟩
    · exact absurd h (splitNl_ne_nil t)
    · rw [h] at ih
      rw [splitNl]
      by_cases hc : c = '\n'
      · subst hc
        rw [if_pos rfl, h]
        cases ss <;> simpa [joinNl] using ih
      · rw [if_neg hc, h]
        cases ss with
        | nil => simpa [joinNl] using congrArg (c :: ·) ih
        | cons s₂ ss' => simpa [joinNl] using congrArg (c :: ·) ih

/-- The raw-data terminator sequence that closes a CDATA section. -/
def cdataTerm : Str := ']' :: ']' :: ['>']

/-- `content.replace(/\]\]>/g, ']]]]><![CDATA[>')` from
`buildParagraph` in `documentBuilder.ts`: every leftmost,
non-overlapping occurrence of the terminator `]]>` is replaced by
`]]` + `]]>` + `<![CDATA[` + `>`. -/
def cdataEscape : Str → Str
  | ']' :: ']' :: '>' :: rest =>
    ']' :: ']' :: ']' :: ']' :: '>' :: '<' :: '!' :: '[' :: 'C' :: 'D' :: 'A' :: 'T' :: 'A' :: '[' :: '>' :: cdataEscape rest
  | c :: rest => c :: cdataEscape rest
  | [] => []

mutual

/-- Model of the XML library's CDATA lexer, started just after an
opening `<![CDATA[`: text up to the first `]]>` is the content of one
section; a `]]>` immediately followed by `<![CDATA[` continues with
the next section (`cdataResume`), and all section contents of the text
node are concatenated; a `]]>` followed by anything else ends the text
node.  On the builder's output every interior `]]>` is immediately
followed by `<![CDATA[` and the final `]]>` ends the node. -/
def cdataLex : Str → Str
  | ']' :: ']' :: '>' :: rest => cdataResume rest
  | c :: rest => c :: cdataLex rest
  | [] => []

/-- After a terminator: an immediate `<![CDATA[` opens the next
section, anything else ends the text node. -/
def cdataResume : Str → Str
  | '<' :: '!' :: '[' :: 'C' :: 'D' :: 'A' :: 'T' :: 'A' :: '[' :: rest => cdataLex rest
  | _ => []

end

/-- Rewriting helper: `cdataEscape` copies a head character that does
not begin a terminator occurrence. -/
theorem cdataEscape_copy (c : Char) (l : Str)
    (h : ∀ r, c :: l ≠ ']' :: ']' :: '>' :: r) :
    cdataEscape (c :: l) = c :: cdataEscape l := by
  rw [cdataEscape.eq_def]
  split
  · rename_i r heq
    exact absurd heq (h r)
  · rename_i c' t' hcond heq
    injection heq with e1 e2
    subst e1; subst e2
    rfl
  · rename_i heq
    injection heq

set_option maxHeartbeats 2000000 in
/-- Rewriting helper: `cdataLex` copies a head character that does not
begin a terminator. -/
theorem cdataLex_copy (c : Char) (l : Str)
    (h : ∀ r, c :: l ≠ ']' :: ']' :: '>' :: r) :
    cdataLex (c :: l) = c :: cdataLex l := by
  rw [cdataLex.eq_def]
  split
  · rename_i r heq
    exact absurd heq (h r)
  · rename_i c' t' hcond heq
    injection heq with e1 e2
    subst e1; subst e2
    rfl
  · rename_i heq
    injection heq

/-- The head character survives `cdataEscape`. -/
theorem cdataEscape_head (c : Char) (t : Str) :
    ∃ u, cdataEscape (c :: t) = c :: u := by
  rw [cdataEscape.eq_def]
  split
  · rename_i r heq
    injection heq with h1 _
    subst h1
    exact ⟨_, rfl⟩
  · rename_i c' t' hcond heq
    injection heq with e1 e2
    subst e1; subst e2
    exact ⟨_, rfl⟩
  · rename_i heq
    injection heq

/-- If a copied character begins no terminator in the source, it
begins no terminator in the escaped output followed by the final
terminator. -/
theorem cdataEscape_copy_safe (c : Char) (t : Str)
    (h : ∀ r, c :: t ≠ ']' :: ']' :: '>' :: r) :
    ∀ r, c :: (cdataEscape t ++ cdataTerm) ≠ ']' :: ']' :: '>' :: r := by
  intro r hc
  injection hc with e1 e2
  subst e1
  rcases t with _ | ⟨t1, t2⟩
  · -- escaped text is empty, so e2 says the bare terminator is ']' :: '>' :: r
    simp only [cdataEscape, List.nil_append, cdataTerm] at e2
    injection e2 with _ e3
    injection e3 with e4 _
    exact absurd e4 (by decide)
  · by_cases hterm : ∃ r', t1 :: t2 = ']' :: ']' :: '>' :: r'
    · obtain ⟨r', hr'⟩ := hterm
      rw [hr'] at e2
      rw [show cdataEscape (']' :: ']' :: '>' :: r') =
          ']' :: ']' :: ']' :: ']' :: '>' :: '<' :: '!' :: '[' :: 'C' :: 'D' :: 'A' :: 'T' :: 'A' :: '[' :: '>' :: cdataEscape r' from rfl] at e2
      simp only [List.cons_append] at e2
      injection e2 with _ e3
      injection e3 with e4 _
      exact absurd e4 (by decide)
    · have hcopy : cdataEscape (t1 :: t2) = t1 :: cdataEscape t2 :=
        cdataEscape_copy t1 t2 (fun r' hr' => hterm ⟨r', hr'⟩)
      rw [hcopy] at e2
      injection e2 with f1 f2
      subst f1
      rcases t2 with _ | ⟨t3, t4⟩
      · simp only [cdataEscape, List.nil_append, cdataTerm] at f2
        injection f2 with f3 _
        exact absurd f3 (by decide)
      · obtain ⟨u, hu⟩ := cdataEscape_head t3 t4
        rw [hu] at f2
        injection f2 with g1 _
        subst g1
        exact h t4 rfl

/-- Losslessness of the terminator escaping: lexing the CDATA sections
of the escaped text (with the final terminator appended) restores the
original line exactly.  This is the substance of the `]]>` write/read
invariant of `buildParagraph`/`getTextFromRun`. -/
theorem cdataLex_cdataEscape (s : Str) :
    cdataLex (cdataEscape s ++ cdataTerm) = s := by
  induction s using cdataEscape.induct with
  | case1 rest ih =>
    rw [show cdataEscape (']' :: ']' :: '>' :: rest) =
        ']' :: ']' :: ']' :: ']' :: '>' :: '<' :: '!' :: '[' :: 'C' :: 'D' :: 'A' :: 'T' :: 'A' :: '[' :: '>' :: cdataEscape rest from rfl]
    rw [show (']' :: ']' :: ']' :: ']' :: '>' :: '<' :: '!' :: '[' :: 'C' :: 'D' :: 'A' :: 'T' :: 'A' :: '[' :: '>' :: cdataEscape rest) ++ cdataTerm
        = ']' :: ']' :: ']' :: ']' :: '>' :: '<' :: '!' :: '[' :: 'C' :: 'D' :: 'A' :: 'T' :: 'A' :: '[' :: '>' :: (cdataEscape rest ++ cdataTerm) from by simp]
    rw [cdataLex_copy ']' _ (by
      intro r hc
      injection hc with _ e
      injection e with _ e2
      injection e2 with e3 _
      exact absurd e3 (by decide))]
    rw [cdataLex_copy ']' _ (by
      intro r hc
      injection hc with _ e
      injection e with _ e2
      injection e2 with e3 _
      exact absurd e3 (by decide))]
    rw [show cdataLex (']' :: ']' :: '>' :: '<' :: '!' :: '[' :: 'C' :: 'D' :: 'A' :: 'T' :: 'A' :: '[' :: '>' :: (cdataEscape rest ++ cdataTerm))
        = cdataLex ('>' :: (cdataEscape rest ++ cdataTerm)) from by
      rw [cdataLex, cdataResume]]
    rw [cdataLex_copy '>' _ (by
      intro r hc
      injection hc with e1 _
      exact absurd e1 (by decide))]
    rw [ih]
  | case2 c rest h ih =>
    have hne : ∀ r, c :: rest ≠ ']' :: ']' :: '>' :: r := by
      intro r hc
      injection hc with e1 e2
      exact h r e1 e2
    rw [cdataEscape_copy c rest hne, List.cons_append,
        cdataLex_copy c _ (cdataEscape_copy_safe c rest hne), ih]
  | case3 => rfl
/-- JavaScript `String(t)` on a plain object (the value the parser
produces when a text-node record has neither usable field). -/
def jsObjectString : Str :=
  '[' :: 'o' :: 'b' :: 'j' :: 'e' :: 'c' :: 't' :: ' ' :: 'O' :: 'b' :: 'j' :: 'e' :: 'c' :: 't' :: [']']

/-- The ASCII whitespace recognised by JavaScript `trim` / `\s`
(non-ASCII whitespace does not occur in the claims). -/
def isJsSpace (c : Char) : Bool :=
  c == ' ' || c == '\t' || c == '\n' || c == '\x0d' || c == '\x0b' || c == '\x0c'

/-- JavaScript `l.trim()`. -/
def jsTrim (l : Str) : Str :=
  ((l.dropWhile isJsSpace).reverse.dropWhile isJsSpace).reverse

/-- The escape of one character under `escapeXml`
(`documentBuilder.ts` / `outputBuilder.ts`).  The source performs five
sequential global replaces (`&`, `<`, `>`, `"`, `'` in that order);
because each pattern is a single character and no replacement string
contains a character that a later stage rewrites, the sequence equals
this single character-by-character map. -/
def escChar : Char → Str
  | '&' => '&' :: 'a' :: 'm' :: 'p' :: [';']
  | '<' => '&' :: 'l' :: 't' :: [';']
  | '>' => '&' :: 'g' :: 't' :: [';']
  | '"' => '&' :: 'q' :: 'u' :: 'o' :: 't' :: [';']
  | '\'' => '&' :: 'a' :: 'p' :: 'o' :: 's' :: [';']
  | c => [c]

/-- `escapeXml` from the builders. -/
def xmlEscape (l : Str) : Str := (l.map escChar).flatten

/-- Model of the XML library's entity decoder applied when it reads a
text node back: the five standard entities are decoded left to right;
any other character is copied. -/
def xmlUnescape : Str → Str
  | '&' :: 'a' :: 'm' :: 'p' :: ';' :: rest => '&' :: xmlUnescape rest
  | '&' :: 'l' :: 't' :: ';' :: rest => '<' :: xmlUnescape rest
  | '&' :: 'g' :: 't' :: ';' :: rest => '>' :: xmlUnescape rest
  | '&' :: 'q' :: 'u' :: 'o' :: 't' :: ';' :: rest => '"' :: xmlUnescape rest
  | '&' :: 'a' :: 'p' :: 'o' :: 's' :: ';' :: rest => '\'' :: xmlUnescape rest
  | c :: rest => c :: xmlUnescape rest
  | [] => []

set_option maxHeartbeats 2000000 in
/-- Rewriting helper: the decoder copies any character other than
`&` (every entity starts with `&`). -/
theorem xmlUnescape_copy (c : Char) (l : Str) (h : c ≠ '&') :
    xmlUnescape (c :: l) = c :: xmlUnescape l := by
  rw [xmlUnescape.eq_def]
  split
  · rename_i heq
    injection heq with e1 _
    exact absurd e1 h
  · rename_i heq
    injection heq with e1 _
    exact absurd e1 h
  · rename_i heq
    injection heq with e1 _
    exact absurd e1 h
  · rename_i heq
    injection heq with e1 _
    exact absurd e1 h
  · rename_i heq
    injection heq with e1 _
    exact absurd e1 h
  · rename_i c' t' hcond heq
    injection heq with e1 e2
    subst e1; subst e2
    rfl
  · rename_i heq
    injection heq

/-- Entity escaping is inverted exactly by the decoder. -/
theorem xmlUnescape_xmlEscape (s : Str) : xmlUnescape (xmlEscape s) = s := by
  induction s with
  | nil => rfl
  | cons c t ih =>
    have hx : xmlEscape (c :: t) = escChar c ++ xmlEscape t := by
      simp [xmlEscape]
    rw [hx]
    by_cases h1 : c = '&'
    · subst h1
      rw [show escChar '&' ++ xmlEscape t = '&' :: 'a' :: 'm' :: 'p' :: ';' :: xmlEscape t from rfl]
      rw [show xmlUnescape ('&' :: 'a' :: 'm' :: 'p' :: ';' :: xmlEscape t) = '&' :: xmlUnescape (xmlEscape t) from rfl, ih]
    · by_cases h2 : c = '<'
      · subst h2
        rw [show escChar '<' ++ xmlEscape t = '&' :: 'l' :: 't' :: ';' :: xmlEscape t from rfl]
        rw [show xmlUnescape ('&' :: 'l' :: 't' :: ';' :: xmlEscape t) = '<' :: xmlUnescape (xmlEscape t) from rfl, ih]
      · by_cases h3 : c = '>'
        · subst h3
          rw [show escChar '>' ++ xmlEscape t = '&' :: 'g' :: 't' :: ';' :: xmlEscape t from rfl]
          rw [show xmlUnescape ('&' :: 'g' :: 't' :: ';' :: xmlEscape t) = '>' :: xmlUnescape (xmlEscape t) from rfl, ih]
        · by_cases h4 : c = '"'
          · subst h4
            rw [show escChar '"' ++ xmlEscape t = '&' :: 'q' :: 'u' :: 'o' :: 't' :: ';' :: xmlEscape t from rfl]
            rw [show xmlUnescape ('&' :: 'q' :: 'u' :: 'o' :: 't' :: ';' :: xmlEscape t) = '"' :: xmlUnescape (xmlEscape t) from rfl, ih]
          · by_cases h5 : c = '\''
            · subst h5
              rw [show escChar '\'' ++ xmlEscape t = '&' :: 'a' :: 'p' :: 'o' :: 's' :: ';' :: xmlEscape t from rfl]
              rw [show xmlUnescape ('&' :: 'a' :: 'p' :: 'o' :: 's' :: ';' :: xmlEscape t) = '\'' :: xmlUnescape (xmlEscape t) from rfl, ih]
            · have hesc : escChar c = [c] := by
                rw [escChar.eq_def]
                split <;> simp_all
              rw [hesc, List.singleton_append, xmlUnescape_copy c _ h1, ih]
/-- A token of the builder's inline markdown tokenizer
(`parseMarkdownRuns` in `documentBuilder.ts`). -/
structure MdRun where
  content : Str
  bold : Bool
  italic : Bool
deriving DecidableEq, Repr

/-- First index at which `**` occurs. -/
def findDD : Str → Option Nat
  | [] => none
  | [_] => none
  | c :: d :: t => if c = '*' ∧ d = '*' then some 0 else (findDD (d :: t)).map (· + 1)

/-- First index at which `*` occurs. -/
def findD : Str → Option Nat
  | [] => none
  | c :: t => if c = '*' then some 0 else (findD t).map (· + 1)

/-- Close a non-greedy bold span: the smallest `m ≥ 1` such that `**`
occurs at position `m` of `v` splits `v` into the span content
`v.take m` and the remainder past the closing `**`. -/
def boldClose (v : Str) : Option (Str × Str) :=
  match v with
  | [] => none
  | c :: t => (findDD t).map (fun i => (c :: t.take i, t.drop (i + 2)))

/-- Close a non-greedy italic span: the smallest `m ≥ 1` such that `*`
occurs at position `m` of `v`. -/
def italClose (v : Str) : Option (Str × Str) :=
  match v with
  | [] => none
  | c :: t => (findD t).map (fun i => (c :: t.take i, t.drop (i + 1)))

/-- The scanning loop of `parseMarkdownRuns`: the JavaScript global
regex `\*\*(.+?)\*\*|\*(.+?)\*|([^\*]+)` is executed repeatedly; at
each position the alternatives are tried in order, and when none
matches at the current position the engine advances to the next
position (so an unmatched `*` is skipped).  Fuel bounds the recursion;
every step consumes at least one character, so `length + 1` fuel (as
supplied by `parseMarkdownRuns`) never runs out. -/
def scanRunsF : Nat → Str → List MdRun
  | 0, _ => []
  | _ + 1, [] => []
  | fuel + 1, '*' :: '*' :: rest =>
    (match boldClose rest with
    | some (mid, after) => ⟨mid, true, false⟩ :: scanRunsF fuel after
    | none =>
      match italClose ('*' :: rest) with
      | some (mid, after) => ⟨mid, false, true⟩ :: scanRunsF fuel after
      | none => scanRunsF fuel ('*' :: rest))
  | fuel + 1, '*' :: rest =>
    (match italClose rest with
    | some (mid, after) => ⟨mid, false, true⟩ :: scanRunsF fuel after
    | none => scanRunsF fuel rest)
  | fuel + 1, c :: rest =>
    ⟨(c :: rest).takeWhile (· ≠ '*'), false, false⟩ :: scanRunsF fuel ((c :: rest).dropWhile (· ≠ '*'))

/-- `parseMarkdownRuns` from `documentBuilder.ts`: scan the line; if
nothing at all matched, fall back to one plain token holding the whole
line. -/
def parseMarkdownRuns (l : Str) : List MdRun :=
  match scanRunsF (l.length + 1) l with
  | [] => [⟨l, false, false⟩]
  | r :: rs => r :: rs

/-- `getMarkupStyle` from `documentBuilder.ts`. -/
def getMarkupStyle (line : Str) : Str :=
  if ("# ".toList).isPrefixOf line then "title".toList
  else if ("## ".toList).isPrefixOf line then "heading".toList
  else if ("### ".toList).isPrefixOf line then "heading2".toList
  else "text".toList

/-- `removeHeadingMarker` from `documentBuilder.ts`:
`line.replace(/^#+\s+/, '')` removes one maximal run of `#` followed
by one maximal run of whitespace, provided both are non-empty. -/
def removeHeadingMarker (line : Str) : Str :=
  let hs := line.takeWhile (· == '#')
  let rest := line.drop hs.length
  let ws := rest.takeWhile isJsSpace
  if hs ≠ [] ∧ ws ≠ [] then rest.drop ws.length else line

/-- A run as emitted by the builder: formatting flags, whether the
text is written as a CDATA node (code lines) or an escaped text node
(markup), and the raw text. -/
structure BRun where
  bold : Bool
  italic : Bool
  isCdata : Bool
  text : Str
deriving DecidableEq, Repr

/-- A paragraph as emitted by the builder: a styled paragraph with
runs, or the section-break paragraph of `buildSectionBreak`. -/
inductive BPara where
  | para (style : Str) (runs : List BRun) : BPara
  | sectionBreak : BPara
deriving DecidableEq, Repr

/-- One markup line of a markup cell, per `buildDocumentXml`:
blank lines become an empty `text` paragraph; otherwise the style
comes from the heading marker (which is then stripped) and the runs
from the inline tokenizer. -/
def buildMarkupLine (line : Str) : BPara :=
  if jsTrim line = [] then .para ("text".toList) []
  else
    let style := getMarkupStyle line
    let content := if style ≠ "text".toList then removeHeadingMarker line else line
    .para style ((parseMarkdownRuns content).map (fun t => ⟨t.bold, t.italic, false, t.content⟩))

/-- The paragraphs of one cell, per `buildDocumentXml`: a code cell
yields one CDATA `code` paragraph per line; a markup cell one styled
paragraph per line. -/
def cellParas (c : MlxCell) : List BPara :=
  match c.kind with
  | .code => (splitNl c.content).map (fun l => .para ("code".toList) [⟨false, false, true, l⟩])
  | .markup => (splitNl c.content).map buildMarkupLine

/-- The paragraph stream of `buildDocumentXml`: a section break is
emitted between cells of different kinds (`previousKind !== null &&
previousKind !== cell.kind`). -/
def buildParasAux : Option CellKind → List MlxCell → List BPara
  | _, [] => []
  | prev, c :: cs =>
    (if prev ≠ none ∧ prev ≠ some c.kind then [BPara.sectionBreak] else []) ++
      cellParas c ++ buildParasAux (some c.kind) cs

/-- All paragraphs built from a cell list. -/
def buildParas (cells : List MlxCell) : List BPara := buildParasAux none cells

/-- The serialized form of one run, exactly as `buildRun` /
`buildParagraph` emit it. -/
def renderBRun (r : BRun) : Str :=
  if r.isCdata then
    ("<w:r><w:t xml:space=\"preserve\"><![CDATA[").toList ++ cdataEscape r.text ++ ("]]></w:t></w:r>").toList
  else
    ("<w:r>").toList ++
    (if r.bold || r.italic then ("<w:rPr>").toList else []) ++
    (if r.bold then ("<w:b/>").toList else []) ++
    (if r.italic then ("<w:u/>").toList else []) ++
    (if r.bold || r.italic then ("</w:rPr>").toList else []) ++
    ("<w:t xml:space=\"preserve\">").toList ++ xmlEscape r.text ++ ("</w:t></w:r>").toList

/-- The serialized form of one paragraph. -/
def renderPara : BPara → Str
  | .sectionBreak => ("<w:p><w:pPr><w:sectPr/></w:pPr></w:p>").toList
  | .para style runs =>
    ("<w:p><w:pPr><w:pStyle w:val=\"").toList ++ style ++ ("\"/></w:pPr>").toList ++
      (runs.map renderBRun).flatten ++ ("</w:p>").toList

/-- `buildDocumentXml` from `documentBuilder.ts`: the rendered
paragraph stream wrapped in the WordprocessingML document shell. -/
def buildDocumentXml (cells : List MlxCell) : Str :=
  ("<?xml version=\"1.0\" encoding=\"UTF-8\"?>\n<w:document xmlns:w=\"http://schemas.openxmlformats.org/wordprocessingml/2006/main\"><w:body>").toList ++
    ((buildParas cells).map renderPara).flatten ++ ("</w:body></w:document>").toList
/-- The value of a run's `w:t` key as the XML library returns it: a
bare string, or an object with optional `__cdata` and `#text` fields
(an empty CDATA section yields a present-but-empty `__cdata`). -/
inductive WText where
  | str (s : Str) : WText
  | obj (cdata : Option Str) (text : Option Str) : WText
deriving DecidableEq, Repr

/-- A run record (`WRun` in `documentParser.ts`): optional `w:rPr`
with presence flags for `w:b` and `w:u`, and an optional `w:t`. -/
structure WRun where
  rpr : Option (Bool × Bool) := none
  t : Option WText := none
deriving DecidableEq, Repr

/-- A paragraph-properties record: optional `w:pStyle` (itself with an
optional `@_w:val`) and presence of `w:sectPr`. -/
structure WPPr where
  pStyle : Option (Option Str) := none
  sectPr : Bool := false
deriving DecidableEq, Repr

/-- A paragraph record (`WParagraph` in `documentParser.ts`).
`fallbackStyle` collapses the optional traversal
`mc:AlternateContent → mc:Fallback → w:pPr → w:pStyle → @_w:val`. -/
structure WParagraph where
  ppr : Option WPPr := none
  runs : Option (List WRun) := none
  fallbackStyle : Option Str := none
deriving DecidableEq, Repr

/-- `getTextFromRun` from `documentParser.ts`: a missing `w:t` reads
as empty; a bare string reads as itself; on an object, a truthy
(non-empty) `__cdata` wins, then a truthy `#text`; otherwise the code
falls through to JavaScript `String(t)`, which prints a plain object
as `[object Object]`. -/
def getTextFromRun (r : WRun) : Str :=
  match r.t with
  | none => []
  | some (.str s) => s
  | some (.obj cd tx) =>
    match cd with
    | some s =>
      if s ≠ [] then s
      else
        match tx with
        | some s2 => if s2 ≠ [] then s2 else jsObjectString
        | none => jsObjectString
    | none =>
      match tx with
      | some s2 => if s2 ≠ [] then s2 else jsObjectString
      | none => jsObjectString

/-- `formatRun` from `documentParser.ts`: empty text contributes
nothing; without `w:rPr` the text passes through; a `w:b` marker wraps
the text in `**…**` first, then a `w:u` marker wraps the result in
`*…*`. -/
def formatRun (r : WRun) : Str :=
  let text := getTextFromRun r
  if text = [] then []
  else
    match r.rpr with
    | none => text
    | some (b, u) =>
      let r1 := if b then ('*' :: '*' :: text) ++ '*' :: ['*'] else text
      if u then ('*' :: r1) ++ ['*'] else r1

/-- JavaScript `fallback || 'text'`. -/
def styleOrText (f : Option Str) : Str :=
  match f with
  | some v => if v ≠ [] then v else "text".toList
  | none => "text".toList

/-- The direct style value `p['w:pPr']?.['w:pStyle']?.['@_w:val']`. -/
def directStyle (p : WParagraph) : Option Str :=
  match p.ppr with
  | some pr =>
    match pr.pStyle with
    | some v => v
    | none => none
  | none => none

/-- `getStyle` from `documentParser.ts`: a truthy direct style wins,
then the truthy fallback style, then `'text'`. -/
def getStyle (p : WParagraph) : Str :=
  match directStyle p with
  | some v => if v ≠ [] then v else styleOrText p.fallbackStyle
  | none => styleOrText p.fallbackStyle

/-- `getRuns` from `documentParser.ts` (array normalization is folded
into the record model). -/
def getRuns (p : WParagraph) : List WRun := p.runs.getD []

/-- `extractText` from `documentParser.ts`. -/
def extractText (p : WParagraph) : Str := ((getRuns p).map formatRun).flatten

/-- `extractCode` from `documentParser.ts`. -/
def extractCode (p : WParagraph) : Str := ((getRuns p).map getTextFromRun).flatten

/-- The skip test of the paragraph loop: section-break-only paragraphs
(`w:sectPr` present, no `w:pStyle`, no `w:r`) are dropped. -/
def skipPara (p : WParagraph) : Bool :=
  match p.ppr with
  | some pr => pr.sectPr && decide (pr.pStyle = none) && decide (p.runs = none)
  | none => false

/-- The markdown prefix reattached to a styled markup line. -/
def styledText (style : Str) (p : WParagraph) : Str :=
  let text := extractText p
  if style = "title".toList then '#' :: ' ' :: text
  else if style = "heading".toList then '#' :: '#' :: ' ' :: text
  else if style = "heading2".toList then '#' :: '#' :: '#' :: ' ' :: text
  else text

/-- `flushMarkup` from `parseDocument`: a non-empty pending buffer
becomes one markup cell joined with newlines. -/
def flushPending (pending : List Str) : List MlxCell :=
  if pending = [] then [] else [mkCell .markup (joinNl pending)]

/-- The paragraph loop of `parseDocument`: skip section breaks; a
`code` paragraph flushes pending markup and yields a code cell; any
other paragraph appends its (prefixed) line to the pending buffer;
pending markup is flushed at the end. -/
def parseLoop : List WParagraph → List Str → List MlxCell
  | [], pending => flushPending pending
  | p :: ps, pending =>
    if skipPara p then parseLoop ps pending
    else
      if getStyle p = "code".toList then
        flushPending pending ++ (mkCell .code (extractCode p) :: parseLoop ps [])
      else
        parseLoop ps (pending ++ [styledText (getStyle p) p])

/-- The merge post-pass of `parseDocument`, written with the running
last cell as an accumulator: a code cell following a code cell is
joined into it with a newline. -/
def mergeInto : MlxCell → List MlxCell → List MlxCell
  | acc, [] => [acc]
  | acc, c :: cs =>
    if c.kind = .code ∧ acc.kind = .code then
      mergeInto ⟨acc.kind, acc.content ++ '\n' :: c.content, acc.outputs, acc.figures, acc.textOutput⟩ cs
    else acc :: mergeInto c cs

/-- `parseDocument`'s merge pass over the whole cell list. -/
def mergeCells : List MlxCell → List MlxCell
  | [] => []
  | c :: cs => mergeInto c cs

/-- The parsed `w:body` record: optional `w:p` list. -/
structure WBody where
  paras : Option (List WParagraph) := none
deriving DecidableEq, Repr

/-- The parsed document root: optional `w:document`/`w:body`. -/
structure XmlDoc where
  body : Option WBody := none
deriving DecidableEq, Repr

/-- The paragraph-list part of `parseDocument`. -/
def parseParas (ps : List WParagraph) : List MlxCell := mergeCells (parseLoop ps [])

/-- `parseDocument` from `documentParser.ts`: a document without a
body or without paragraphs parses to the empty cell list. -/
def parseDocument (d : XmlDoc) : List MlxCell :=
  match d.body with
  | none => []
  | some b =>
    match b.paras with
    | none => []
    | some ps => parseParas ps

/-- What the XML library reads back from one rendered run's `w:t`
node: a CDATA node carries the lexed concatenation of its sections
(present even when empty); a text node carries the entity-decoded
text, with the `#text` field absent when the rendered text is empty
(both shapes are objects because of the `xml:space` attribute). -/
def libText (r : BRun) : WText :=
  if r.isCdata then .obj (some (cdataLex (cdataEscape r.text ++ cdataTerm))) none
  else .obj none (if xmlEscape r.text = [] then none else some (xmlUnescape (xmlEscape r.text)))

/-- What the XML library reads back from one rendered run. -/
def libRun (r : BRun) : WRun :=
  ⟨if r.bold || r.italic then some (r.bold, r.italic) else none, some (libText r)⟩

/-- What the XML library reads back from one rendered paragraph. -/
def libPara : BPara → WParagraph
  | .sectionBreak => ⟨some ⟨none, true⟩, none, none⟩
  | .para style runs =>
    ⟨some ⟨some (some style), false⟩,
     if runs = [] then none else some (runs.map libRun),
     none⟩

/-- The document record the XML library produces from the rendered
output of `buildDocumentXml`. -/
def libDocument (cells : List MlxCell) : XmlDoc :=
  ⟨some ⟨some ((buildParas cells).map libPara)⟩⟩

/-- `parseDocument(buildDocumentXml(cells))`. -/
def docRoundtrip (cells : List MlxCell) : List MlxCell :=
  parseDocument (libDocument cells)
/-- A built styled paragraph reads back its own (non-empty) style. -/
theorem getStyle_libPara (style : Str) (runs : List BRun) (h : style ≠ []) :
    getStyle (libPara (.para style runs)) = style := by
  simp [libPara, getStyle, directStyle, h]

/-- A built styled paragraph is never skipped. -/
theorem skipPara_libPara_para (style : Str) (runs : List BRun) :
    skipPara (libPara (.para style runs)) = false := by
  simp [libPara, skipPara]

/-- A built section break is skipped. -/
theorem skipPara_libPara_break : skipPara (libPara .sectionBreak) = true := by
  simp [libPara, skipPara]

/-- The style of a built markup-line paragraph is one of the four
markup styles. -/
theorem buildMarkupLine_style (l : Str) :
    ∃ runs, buildMarkupLine l = .para (getMarkupStyle l) runs ∨
      buildMarkupLine l = .para ("text".toList) runs := by
  by_cases h : jsTrim l = []
  · exact ⟨[], Or.inr (by rw [buildMarkupLine, if_pos h])⟩
  · exact ⟨_, Or.inl (by rw [buildMarkupLine, if_neg h])⟩

/-- A built markup-line paragraph never carries the `code` style. -/
theorem buildMarkupLine_ne_code (l : Str) :
    getStyle (libPara (buildMarkupLine l)) ≠ "code".toList := by
  obtain ⟨runs, h | h⟩ := buildMarkupLine_style l
  · rw [h, getStyle_libPara]
    · rw [getMarkupStyle]
      split
      · decide
      · split
        · decide
        · split
          · decide
          · decide
    · rw [getMarkupStyle]
      split
      · decide
      · split
        · decide
        · split
          · decide
          · decide
  · rw [h, getStyle_libPara _ _ (by decide)]
    decide

/-- A non-empty code line survives the CDATA write/read unchanged
(`buildParagraph` with `isCodeLine` true, then `getTextFromRun`). -/
theorem codeLine_rt (l : Str) (h : l ≠ []) :
    getTextFromRun (libRun ⟨false, false, true, l⟩) = l := by
  simp only [libRun, libText, if_true]
  rw [getTextFromRun]
  simp only [cdataLex_cdataEscape]
  simp [h]

/-- A built code paragraph for a non-empty line parses back to that
line. -/
theorem codePara_extract (l : Str) (h : l ≠ []) :
    extractCode (libPara (.para ("code".toList) [⟨false, false, true, l⟩])) = l := by
  rw [extractCode, libPara]
  simp only [getRuns]
  simp [codeLine_rt l h]

/-- The line a built markup paragraph parses back to. -/
def parsedMarkupLine (l : Str) : Str :=
  styledText (getStyle (libPara (buildMarkupLine l))) (libPara (buildMarkupLine l))

/-- A markup line that survives the build/parse round trip. -/
def markupLineOk (l : Str) : Bool := decide (parsedMarkupLine l = l)

/-- Cell-level side conditions of the round trip: every line of a code
cell is non-empty (an empty CDATA section falls into the
`String(object)` branch of `getTextFromRun`), and every line of a
markup cell parses back to itself. -/
def goodCell (c : MlxCell) : Bool :=
  match c.kind with
  | .code => (splitNl c.content).all (fun l => decide (l ≠ []))
  | .markup => (splitNl c.content).all markupLineOk

/-- All cells satisfy their side conditions. -/
def goodCells (cells : List MlxCell) : Bool := cells.all goodCell

/-- Adjacent cells always differ in kind (true of every list
`parseDocument` can produce). -/
def altCells : List MlxCell → Bool
  | [] => true
  | [_] => true
  | a :: b :: cs => decide (a.kind ≠ b.kind) && altCells (b :: cs)

/-- Semantic form of the paragraph loop on built output: code cells
contribute one code cell per line, markup cells extend the pending
line buffer. -/
def parseSem : List MlxCell → List Str → List MlxCell
  | [], pending => flushPending pending
  | c :: cs, pending =>
    match c.kind with
    | .code => flushPending pending ++ ((splitNl c.content).map (mkCell .code) ++ parseSem cs [])
    | .markup => parseSem cs (pending ++ splitNl c.content)

/-- The cell stream before the merge pass, cell by cell. -/
def preMerge (cells : List MlxCell) : List MlxCell :=
  cells.flatMap (fun c =>
    match c.kind with
    | .code => (splitNl c.content).map (mkCell .code)
    | .markup => [mkCell .markup c.content])
/-- A section-break paragraph is dropped by the loop. -/
theorem parseLoop_break (rest : List WParagraph) (pending : List Str) :
    parseLoop (libPara .sectionBreak :: rest) pending = parseLoop rest pending := by
  rw [parseLoop, if_pos skipPara_libPara_break]

/-- The loop over the built paragraphs of one code cell: each line
flushes pending markup (the first one) and contributes one code
cell. -/
theorem parseLoop_code_block (lines : List Str) (hne : lines ≠ [])
    (h : ∀ l ∈ lines, l ≠ []) (rest : List WParagraph) (pending : List Str) :
    parseLoop ((lines.map (fun l => libPara (.para ("code".toList) [⟨false, false, true, l⟩]))) ++ rest) pending
      = flushPending pending ++ (lines.map (mkCell .code) ++ parseLoop rest []) := by
  induction lines generalizing pending with
  | nil => exact absurd rfl hne
  | cons l ls ih =>
    rw [List.map_cons, List.cons_append, parseLoop,
        if_neg (by rw [skipPara_libPara_para]; exact Bool.false_ne_true),
        if_pos (getStyle_libPara _ _ (by decide)),
        codePara_extract l (h l (List.mem_cons_self l ls))]
    cases ls with
    | nil => simp [flushPending]
    | cons l2 ls2 =>
      rw [ih (by simp) (fun x hx => h x (List.mem_cons_of_mem l hx)) []]
      simp [flushPending]

/-- The loop over the built paragraphs of one markup cell: each line
appends its reconstructed text to the pending buffer. -/
theorem parseLoop_markup_block (lines : List Str)
    (h : ∀ l ∈ lines, markupLineOk l = true) (rest : List WParagraph) (pending : List Str) :
    parseLoop ((lines.map (fun l => libPara (buildMarkupLine l))) ++ rest) pending
      = parseLoop rest (pending ++ lines) := by
  induction lines generalizing pending with
  | nil => simp
  | cons l ls ih =>
    have hok : parsedMarkupLine l = l :=
      of_decide_eq_true (h l (List.mem_cons_self l ls))
    obtain ⟨runs, hpar | hpar⟩ := buildMarkupLine_style l
    · rw [List.map_cons, List.cons_append, parseLoop,
          if_neg (by rw [hpar, skipPara_libPara_para]; exact Bool.false_ne_true),
          if_neg (buildMarkupLine_ne_code l)]
      rw [show styledText (getStyle (libPara (buildMarkupLine l))) (libPara (buildMarkupLine l)) = l from hok]
      rw [ih (fun x hx => h x (List.mem_cons_of_mem l hx)) (pending ++ [l])]
      simp
    · rw [List.map_cons, List.cons_append, parseLoop,
          if_neg (by rw [hpar, skipPara_libPara_para]; exact Bool.false_ne_true),
          if_neg (buildMarkupLine_ne_code l)]
      rw [show styledText (getStyle (libPara (buildMarkupLine l))) (libPara (buildMarkupLine l)) = l from hok]
      rw [ih (fun x hx => h x (List.mem_cons_of_mem l hx)) (pending ++ [l])]
      simp

/-- The paragraph loop on the full built stream equals the semantic
loop `parseSem`, given the per-cell side conditions. -/
theorem parseLoop_buildParas (cells : List MlxCell) (prev : Option CellKind)
    (pending : List Str) (hg : goodCells cells = true) :
    parseLoop ((buildParasAux prev cells).map libPara) pending = parseSem cells pending := by
  induction cells generalizing prev pending with
  | nil => rfl
  | cons c cs ih =>
    have hgc : goodCell c = true := by
      have := hg
      simp [goodCells, List.all_cons] at this
      exact this.1
    have hgcs : goodCells cs = true := by
      have := hg
      simp [goodCells, List.all_cons] at this
      simpa [goodCells] using this.2
    rw [buildParasAux]
    rw [List.map_append, List.map_append]
    have hbreak : ∀ rest2 pend2, parseLoop (((if prev ≠ none ∧ prev ≠ some c.kind then [BPara.sectionBreak] else []).map libPara) ++ rest2) pend2 = parseLoop rest2 pend2 := by
      intro rest2 pend2
      by_cases hb : prev ≠ none ∧ prev ≠ some c.kind
      · rw [if_pos hb]
        exact parseLoop_break rest2 pend2
      · rw [if_neg hb]
        rfl
    rw [List.append_assoc, hbreak]
    cases hk : c.kind with
    | code =>
      have hlines : ∀ l ∈ splitNl c.content, l ≠ [] := by
        intro l hl
        have := hgc
        rw [goodCell, hk] at this
        have := List.all_eq_true.mp this l hl
        exact of_decide_eq_true this
      rw [show (cellParas c).map libPara
          = (splitNl c.content).map (fun l => libPara (.para ("code".toList) [⟨false, false, true, l⟩])) from by
        rw [cellParas, hk, List.map_map]
        rfl]
      rw [parseLoop_code_block (splitNl c.content) (splitNl_ne_nil _) hlines _ pending]
      rw [ih (some .code) [] hgcs]
      rw [parseSem, hk]
    | markup =>
      have hlines : ∀ l ∈ splitNl c.content, markupLineOk l = true := by
        intro l hl
        have := hgc
        rw [goodCell, hk] at this
        exact List.all_eq_true.mp this l hl
      rw [show (cellParas c).map libPara
          = (splitNl c.content).map (fun l => libPara (buildMarkupLine l)) from by
        rw [cellParas, hk, List.map_map]
        rfl]
      rw [parseLoop_markup_block (splitNl c.content) hlines _ pending]
      rw [ih (some .markup) (pending ++ splitNl c.content) hgcs]
      rw [parseSem, hk]
theorem altCells_tail (a : MlxCell) (t : List MlxCell)
    (h : altCells (a :: t) = true) : altCells t = true := by
  cases t with
  | nil => rfl
  | cons b t2 =>
    rw [altCells, Bool.and_eq_true] at h
    exact h.2

theorem altCells_head (a b : MlxCell) (t : List MlxCell)
    (h : altCells (a :: b :: t) = true) : a.kind ≠ b.kind := by
  rw [altCells, Bool.and_eq_true] at h
  exact of_decide_eq_true h.1

/-- On an alternating cell list the semantic loop produces the
pre-merge cell stream (the pending buffer may be non-empty only ahead
of a code cell or at the end). -/
theorem parseSem_eq (cells : List MlxCell) (pending : List Str)
    (halt : altCells cells = true)
    (hp : pending = [] ∨ cells = [] ∨ ∃ c cs, cells = c :: cs ∧ c.kind = .code) :
    parseSem cells pending = flushPending pending ++ preMerge cells := by
  induction cells generalizing pending with
  | nil => simp [parseSem, preMerge]
  | cons c cs ih =>
    cases hk : c.kind with
    | code =>
      simp only [parseSem, hk]
      rw [ih [] (altCells_tail _ _ halt) (Or.inl rfl)]
      simp [preMerge, hk, flushPending]
    | markup =>
      have hpend : pending = [] := by
        rcases hp with h | h | ⟨c', cs', heq, hkc⟩
        · exact h
        · exact absurd h (by simp)
        · injection heq with e1 _
          rw [e1] at hk
          rw [hk] at hkc
          exact absurd hkc (by decide)
      subst hpend
      simp only [parseSem, hk, List.nil_append]
      cases cs with
      | nil =>
        simp only [parseSem]
        rw [show flushPending (splitNl c.content)
            = [mkCell .markup (joinNl (splitNl c.content))] from by
          rw [flushPending, if_neg (splitNl_ne_nil c.content)]]
        rw [joinNl_splitNl]
        simp [preMerge, hk, flushPending]
      | cons c2 cs2 =>
        have hk2 : c2.kind = .code := by
          have := altCells_head c c2 cs2 halt
          rw [hk] at this
          cases h2 : c2.kind with
          | code => rfl
          | markup => rw [h2] at this; exact absurd rfl this
        rw [ih (splitNl c.content) (altCells_tail _ _ halt)
            (Or.inr (Or.inr ⟨c2, cs2, rfl, hk2⟩))]
        rw [show flushPending (splitNl c.content)
            = [mkCell .markup (joinNl (splitNl c.content))] from by
          rw [flushPending, if_neg (splitNl_ne_nil c.content)]]
        rw [joinNl_splitNl]
        simp [preMerge, hk, flushPending]

theorem joinNl_shift (a l : Str) (ls : List Str) :
    joinNl ((a ++ '\n' :: l) :: ls) = a ++ '\n' :: joinNl (l :: ls) := by
  cases ls with
  | nil => rfl
  | cons l2 ls2 => simp [joinNl]

/-- Merging a run of code cells accumulates their lines joined with
newlines. -/
theorem mergeInto_code_block (a : Str) (ls : List Str) (rest : List MlxCell) :
    mergeInto (mkCell .code a) (ls.map (mkCell .code) ++ rest)
      = mergeInto (mkCell .code (joinNl (a :: ls))) rest := by
  induction ls generalizing a with
  | nil => rfl
  | cons l ls2 ih =>
    rw [List.map_cons, List.cons_append, mergeInto, if_pos ⟨rfl, rfl⟩]
    rw [show (⟨(mkCell CellKind.code a).kind, (mkCell CellKind.code a).content ++ '\n' :: (mkCell CellKind.code l).content,
          (mkCell CellKind.code a).outputs, (mkCell CellKind.code a).figures, (mkCell CellKind.code a).textOutput⟩ : MlxCell)
        = mkCell .code (a ++ '\n' :: l) from rfl]
    rw [ih (a ++ '\n' :: l), joinNl_shift]
    rfl

/-- The merge pass restores the original alternating cell list from
the pre-merge stream (up to the bare-cell projection). -/
theorem mergeCells_preMerge (cells : List MlxCell) (halt : altCells cells = true) :
    mergeCells (preMerge cells) = cells.map (fun c => mkCell c.kind c.content) := by
  induction cells with
  | nil => rfl
  | cons c cs ih =>
    cases hk : c.kind with
    | markup =>
      rw [show preMerge (c :: cs) = mkCell .markup c.content :: preMerge cs from by
        simp [preMerge, hk]]
      rw [mergeCells]
      cases cs with
      | nil => simp [preMerge, mergeInto, hk]
      | cons c2 cs2 =>
        have hk2 : c2.kind = .code := by
          have := altCells_head c c2 cs2 halt
          rw [hk] at this
          cases h2 : c2.kind with
          | code => rfl
          | markup => rw [h2] at this; exact absurd rfl this
        rcases hsplit : splitNl c2.content with _ | ⟨l1, ls⟩
        · exact absurd hsplit (splitNl_ne_nil c2.content)
        · rw [show preMerge (c2 :: cs2) = mkCell .code l1 :: (ls.map (mkCell .code) ++ preMerge cs2) from by
            simp [preMerge, hk2, hsplit]]
          rw [mergeInto, if_neg (by simp [mkCell])]
          rw [show mergeInto (mkCell CellKind.code l1) (List.map (mkCell CellKind.code) ls ++ preMerge cs2)
              = mergeCells (preMerge (c2 :: cs2)) from by
            rw [show preMerge (c2 :: cs2) = mkCell .code l1 :: (ls.map (mkCell .code) ++ preMerge cs2) from by
              simp [preMerge, hk2, hsplit]]
            rw [mergeCells]]
          rw [ih (altCells_tail _ _ halt)]
          simp [hk]
    | code =>
      rcases hsplit : splitNl c.content with _ | ⟨l1, ls⟩
      · exact absurd hsplit (splitNl_ne_nil c.content)
      · rw [show preMerge (c :: cs) = mkCell .code l1 :: (ls.map (mkCell .code) ++ preMerge cs) from by
          simp [preMerge, hk, hsplit]]
        rw [mergeCells, mergeInto_code_block]
        rw [show joinNl (l1 :: ls) = c.content from by rw [← hsplit, joinNl_splitNl]]
        cases cs with
        | nil => simp [preMerge, mergeInto, hk]
        | cons c2 cs2 =>
          have hk2 : c2.kind = .markup := by
            have := altCells_head c c2 cs2 halt
            rw [hk] at this
            cases h2 : c2.kind with
            | markup => rfl
            | code => rw [h2] at this; exact absurd rfl this
          rw [show preMerge (c2 :: cs2) = mkCell .markup c2.content :: preMerge cs2 from by
            simp [preMerge, hk2]]
          rw [mergeInto, if_neg (by simp [mkCell])]
          rw [show mergeInto (mkCell CellKind.markup c2.content) (preMerge cs2)
              = mergeCells (preMerge (c2 :: cs2)) from by
            rw [show preMerge (c2 :: cs2) = mkCell .markup c2.content :: preMerge cs2 from by
              simp [preMerge, hk2]]
            rw [mergeCells]]
          rw [ih (altCells_tail _ _ halt)]
          simp [hk]
/-- No two consecutive cells are both code cells. -/
def noAdjCode : List MlxCell → Bool
  | [] => true
  | [_] => true
  | a :: b :: cs => decide (¬(a.kind = .code ∧ b.kind = .code)) && noAdjCode (b :: cs)

/-- The merge accumulator emits its accumulator's kind first. -/
theorem mergeInto_head_kind (cs : List MlxCell) (acc : MlxCell) :
    ∃ c' rest', mergeInto acc cs = c' :: rest' ∧ c'.kind = acc.kind := by
  induction cs generalizing acc with
  | nil => exact ⟨acc, [], rfl, rfl⟩
  | cons c cs2 ih =>
    rw [mergeInto]
    by_cases hb : c.kind = .code ∧ acc.kind = .code
    · rw [if_pos hb]
      obtain ⟨c', rest', heq, hkind⟩ := ih ⟨acc.kind, acc.content ++ '\n' :: c.content, acc.outputs, acc.figures, acc.textOutput⟩
      exact ⟨c', rest', heq, hkind⟩
    · rw [if_neg hb]
      exact ⟨acc, mergeInto c cs2, rfl, rfl⟩

/-- After the merge pass no two adjacent code cells remain. -/
theorem mergeInto_noAdjCode (cs : List MlxCell) (acc : MlxCell) :
    noAdjCode (mergeInto acc cs) = true := by
  induction cs generalizing acc with
  | nil => rfl
  | cons c cs2 ih =>
    rw [mergeInto]
    by_cases hb : c.kind = .code ∧ acc.kind = .code
    · rw [if_pos hb]
      exact ih _
    · rw [if_neg hb]
      obtain ⟨c', rest', heq, hkind⟩ := mergeInto_head_kind cs2 c
      rw [heq]
      rw [noAdjCode, Bool.and_eq_true]
      refine ⟨?_, by rw [← heq]; exact ih c⟩
      rw [hkind]
      exact decide_eq_true (fun hcon => hb ⟨hcon.2, hcon.1⟩)

/-- The merge pass output never contains adjacent code cells. -/
theorem mergeCells_noAdjCode (cs : List MlxCell) :
    noAdjCode (mergeCells cs) = true := by
  cases cs with
  | nil => rfl
  | cons c cs2 => exact mergeInto_noAdjCode cs2 c
/-- Decimal rendering of a natural number (JavaScript string
interpolation of the non-negative integers the builder emits). -/
def natRender (n : Nat) : Str :=
  if n = 0 then ['0'] else (Nat.digits 10 n).reverse.map Nat.digitChar

/-- The numeric value of a decimal digit character, if it is one. -/
def digitVal (c : Char) : Option Nat :=
  if '0' ≤ c ∧ c ≤ '9' then some (c.toNat - 48) else none

/-- The value of a most-significant-first digit list. -/
def decValue (ds : List Nat) : Nat := ds.foldl (fun acc d => 10 * acc + d) 0

/-- The maximal leading run of decimal digits. -/
def leadDigits : Str → List Nat
  | [] => []
  | c :: t =>
    match digitVal c with
    | some d => d :: leadDigits t
    | none => []

/-- JavaScript `parseInt(s, 10)`: an optional sign followed by at
least one digit; `none` models `NaN`.  (Leading whitespace does not
occur here: the XML library has already trimmed the value.) -/
def jsParseInt (s : Str) : Option Int :=
  match s with
  | [] => none
  | c :: t =>
    if c = '-' then
      match leadDigits t with
      | [] => none
      | ds => some (-(decValue ds : Int))
    else if c = '+' then
      match leadDigits t with
      | [] => none
      | ds => some ((decValue ds : Int))
    else
      match leadDigits (c :: t) with
      | [] => none
      | ds => some ((decValue ds : Int))

/-- JavaScript `Number(x) || 0` on an optional string: a missing
value, an empty string or a non-numeral yields 0; a plain decimal
numeral (the only shape the builder emits) yields its value. -/
def jsNumberOr0 (s : Option Str) : Nat :=
  match s with
  | none => 0
  | some t =>
    if t ≠ [] ∧ t.all (fun c => (digitVal c).isSome) then
      decValue (t.map (fun c => c.toNat - 48))
    else 0

/-- An execution-result bundle attached to a code cell
(`CellOutputData` in `outputBuilder.ts`). -/
structure CellOutputData where
  outputs : List MlxOutput
  figures : Option (List Str) := none
  text : Option Str := none
deriving DecidableEq, Repr

/-- A builder-side cell (the `buildOutputXml` parameter shape). -/
structure BCell where
  kind : CellKind
  content : Str
  executionOutputs : Option CellOutputData := none
deriving DecidableEq, Repr

/-- One element of the built `outputArray`. -/
inductive OutElemB where
  | variable (name value : Str) (rows columns : Nat) : OutElemB
  | figure (data : Str) : OutElemB
  | text (t : Str) : OutElemB
deriving DecidableEq, Repr

/-- The elements one cell's execution bundle contributes, in emission
order: variables, then figures (each with the data-URI lead-in), then the
aggregated text if it is a non-empty string. -/
def buildCellElems (d : CellOutputData) : List OutElemB :=
  (d.outputs.map (fun o => OutElemB.variable o.name o.value o.rows o.columns)) ++
  ((d.figures.getD []).map (fun f => OutElemB.figure (("data:image/png;base64,").toList ++ f))) ++
  (match d.text with
   | some t => if t ≠ [] then [OutElemB.text t] else []
   | none => [])

/-- The loop of `buildOutputXml` over the cells, threading the global
output counter: a code cell emits its bundle's elements (recording
their indices) and one region per source line, all of them empty
except the last, which carries the recorded indices. -/
def buildOutputAux : Nat → List BCell → List OutElemB × List (List Nat)
  | _, [] => ([], [])
  | counter, c :: cs =>
    match c.kind with
    | .markup => buildOutputAux counter cs
    | .code =>
      let elems := match c.executionOutputs with
        | some d => buildCellElems d
        | none => []
      let lineCount := (splitNl c.content).length
      let regions := List.replicate (lineCount - 1) ([] : List Nat) ++
        [List.range' counter elems.length]
      let rest := buildOutputAux (counter + elems.length) cs
      (elems ++ rest.1, regions ++ rest.2)

/-- The structural content of the XML document `buildOutputXml`
emits: the `outputArray` elements in order and the `regionArray`
index lists in order. -/
def buildOutputXml (cells : List BCell) : List OutElemB × List (List Nat) :=
  buildOutputAux 0 cells

/-- The `outputData` record of a parsed output element. -/
structure OutDataP where
  name : Option Str := none
  value : Option Str := none
  rows : Option Str := none
  columns : Option Str := none
deriving DecidableEq, Repr

/-- A parsed `outputArray` element (`OutputElement` in
`outputParser.ts`). -/
structure OutElemP where
  type : Option Str := none
  outputData : Option OutDataP := none
  figureUri : Option Str := none
  text : Option Str := none
deriving DecidableEq, Repr

/-- A parsed `outputIndexes` record; a single bare index is
normalized to a one-element list (`extractIndexes` handles both). -/
structure OutIndexesP where
  element : Option (List Str) := none
deriving DecidableEq, Repr

/-- A parsed `regionArray` element. -/
structure RegionP where
  outputIndexes : Option OutIndexesP := none
deriving DecidableEq, Repr

/-- A parsed output-XML root. -/
structure OutRootP where
  outputArrayElement : Option (List OutElemP) := none
  regionArrayElement : Option (List RegionP) := none
deriving DecidableEq, Repr

/-- The parsed output-XML document: `doc.embeddedOutputs ||
doc.outputData`. -/
structure OutXmlDoc where
  embeddedOutputs : Option OutRootP := none
  outputData : Option OutRootP := none
deriving DecidableEq, Repr

/-- `extractIndexes` from `outputParser.ts`: the index strings are
parsed with `parseInt` and the `NaN`s are discarded. -/
def extractIndexes (oi : Option OutIndexesP) : List Int :=
  match oi with
  | none => []
  | some o =>
    match o.element with
    | none => []
    | some els => (els.map jsParseInt).reduceOption

/-- `el.type || 'variable'`. -/
def elemType (el : OutElemP) : Str :=
  match el.type with
  | some t => if t ≠ [] then t else ("variable").toList
  | none => ("variable").toList

/-- Classification of one referenced element into the region bundle
(`parseOutputs`' inner loop body): a `figure` with a truthy
`figureUri` contributes a figure, a `text` with a truthy `text`
contributes a text entry, anything with an `outputData` record
contributes a variable. -/
def addElem (el : OutElemP) (r : MlxRegion) : MlxRegion :=
  let t := elemType el
  if t = ("figure").toList ∧ el.figureUri.getD [] ≠ [] then
    ⟨r.vars, (el.figureUri.getD []) :: r.figures, r.text⟩
  else if t = ("text").toList ∧ el.text.getD [] ≠ [] then
    ⟨r.vars, r.figures, (el.text.getD []) :: r.text⟩
  else
    match el.outputData with
    | some od =>
      ⟨⟨t, od.name.getD [], od.value.getD [], jsNumberOr0 od.rows, jsNumberOr0 od.columns⟩ :: r.vars,
       r.figures, r.text⟩
    | none => r

/-- The referenced elements of one region, in reference order,
skipping out-of-range indices. -/
def collectRegion (elements : List OutElemP) : List Int → MlxRegion
  | [] => ⟨[], [], []⟩
  | oi :: rest =>
    let r := collectRegion elements rest
    if oi < 0 ∨ (elements.length : Int) ≤ oi then r
    else
      match elements[oi.toNat]? with
      | some el => addElem el r
      | none => r

/-- The region loop of `parseOutputs`: the position in the
`regionArray` is the region index, and a map entry is produced only
when at least one bucket is non-empty. -/
def regionLoop (elements : List OutElemP) : Nat → List RegionP → List (Nat × MlxRegion)
  | _, [] => []
  | i, reg :: rest =>
    let b := collectRegion elements (extractIndexes reg.outputIndexes)
    (if b.vars ≠ [] ∨ b.figures ≠ [] ∨ b.text ≠ [] then [(i, b)] else []) ++
      regionLoop elements (i + 1) rest

/-- `doc.embeddedOutputs || doc.outputData`. -/
def outRoot (d : OutXmlDoc) : Option OutRootP :=
  match d.embeddedOutputs with
  | some r => some r
  | none => d.outputData

/-- `parseOutputs` from `outputParser.ts` (the region-bundle
version): missing root or missing `outputArray` yield the empty
map. -/
def parseOutputs (d : OutXmlDoc) : List (Nat × MlxRegion) :=
  match outRoot d with
  | none => []
  | some root =>
    match root.outputArrayElement with
    | none => []
    | some elements => regionLoop elements 0 (root.regionArrayElement.getD [])

/-- Lookup in the region map (`outputMap[i]`). -/
def outputMapGet (m : List (Nat × MlxRegion)) (i : Nat) : Option MlxRegion :=
  (m.find? (fun e => e.1 == i)).map (fun e => e.2)
/-- What the XML library reads back from one escaped, rendered text
value under `trimValues: true`: the raw (escaped) text is trimmed and
its entities are decoded. -/
def readText (s : Str) : Str := xmlUnescape (jsTrim (xmlEscape s))

/-- Read-back of an unescaped rendered value (the builder does not
escape figure URIs or numerals). -/
def readRaw (s : Str) : Str := xmlUnescape (jsTrim s)

/-- What the XML library reads back from one rendered `outputArray`
element of `buildOutputXml`. -/
def libOutElem : OutElemB → OutElemP
  | .variable n v r c =>
    ⟨some (("variable").toList),
     some ⟨some (readText n), some (readText v), some (readRaw (natRender r)), some (readRaw (natRender c))⟩,
     none, none⟩
  | .figure d => ⟨some (("figure").toList), none, some (readRaw d), none⟩
  | .text t => ⟨some (("text").toList), none, none, some (readText t)⟩

/-- What the XML library reads back from one rendered `regionArray`
element: an empty index list renders as a childless `outputIndexes`
(no `element` key), a non-empty one as its rendered numerals. -/
def libOutRegion (idxs : List Nat) : RegionP :=
  ⟨some ⟨if idxs = [] then none else some (idxs.map (fun i => readRaw (natRender i)))⟩⟩

/-- The output document record the XML library produces from the
rendered output of `buildOutputXml` (childless arrays read back with
no `element` key). -/
def libOutDoc (b : List OutElemB × List (List Nat)) : OutXmlDoc :=
  ⟨some ⟨(if b.1 = [] then none else some (b.1.map libOutElem)),
         (if b.2 = [] then none else some (b.2.map libOutRegion))⟩,
   none⟩

/-- A loaded `.mlx` container as `parseMlx` sees it: the mandatory
document entry (already structurally parsed when present), and the
optional output entry — `some none` models an output entry whose XML
is malformed, so that `XMLParser.parse` throws inside the `try`. -/
structure MlxContainer where
  doc : Option XmlDoc := none
  out : Option (Option OutXmlDoc) := none

/-- The buckets collected from `lineCount` consecutive regions
starting at `ri` (the inner line loop of `parseMlx`). -/
def collectLines (m : List (Nat × MlxRegion)) : Nat → Nat → MlxRegion
  | _, 0 => ⟨[], [], []⟩
  | ri, k + 1 =>
    let rest := collectLines m (ri + 1) k
    match outputMapGet m ri with
    | some reg => ⟨reg.vars ++ rest.vars, reg.figures ++ rest.figures, reg.text ++ rest.text⟩
    | none => rest

/-- The attachment loop of `parseMlx`: each code cell consumes one
region per source line from the running region counter and receives
whichever buckets were non-empty. -/
def attachLoop (m : List (Nat × MlxRegion)) : Nat → List MlxCell → List MlxCell
  | _, [] => []
  | ri, c :: cs =>
    match c.kind with
    | .markup => c :: attachLoop m ri cs
    | .code =>
      let lineCount := (splitNl c.content).length
      let got := collectLines m ri lineCount
      ⟨c.kind, c.content,
       (if got.vars ≠ [] then some got.vars else c.outputs),
       (if got.figures ≠ [] then some got.figures else c.figures),
       (if got.text ≠ [] then some (joinNl got.text) else c.textOutput)⟩ ::
        attachLoop m (ri + lineCount) cs

/-- `parseMlx` from `parser.ts`: a missing document entry is a thrown
error; output metadata is parsed best-effort inside a `try` whose
`catch` leaves the cells untouched. -/
def parseMlx (z : MlxContainer) : Except Str (List MlxCell) :=
  match z.doc with
  | none => .error (("Invalid .mlx file: missing matlab/document.xml").toList)
  | some d =>
    let cells := parseDocument d
    match z.out with
    | none => .ok cells
    | some none => .ok cells
    | some (some o) => .ok (attachLoop (parseOutputs o) 0 cells)

/-- Modelled from the spec: the Container Adapter (the JSZip archive
the repository delegates to — its implementation is not under `src/`).
An archive is a sequence of named byte entries; per §4.5 of the spec,
saving "produce[s] a new archive that is byte-identical to the
original in every entry except the one or two entries being
replaced". -/
structure ZipEntry where
  name : Str
  bytes : List Nat
deriving DecidableEq, Repr

/-- Modelled from the spec: replacing one named entry rewrites that
entry's bytes in place and leaves every other entry untouched; a new
name is appended. -/
def zipReplace (entries : List ZipEntry) (name : Str) (bytes : List Nat) : List ZipEntry :=
  if (entries.map ZipEntry.name).contains name then
    entries.map (fun e => if e.name = name then ⟨name, bytes⟩ else e)
  else entries ++ [⟨name, bytes⟩]
theorem digitVal_digitChar (d : Nat) (h : d < 10) :
    digitVal (Nat.digitChar d) = some d := by
  interval_cases d <;> decide

theorem digitChar_not_space (d : Nat) (h : d < 10) :
    isJsSpace (Nat.digitChar d) = false := by
  interval_cases d <;> decide

theorem digitChar_not_amp (d : Nat) (h : d < 10) :
    Nat.digitChar d ≠ '&' := by
  interval_cases d <;> decide

theorem digitChar_not_sign (d : Nat) (h : d < 10) :
    Nat.digitChar d ≠ '-' ∧ Nat.digitChar d ≠ '+' := by
  interval_cases d <;> decide

theorem digitChar_toNat (d : Nat) (h : d < 10) :
    (Nat.digitChar d).toNat - 48 = d := by
  interval_cases d <;> decide

/-- Every character of a rendered numeral is a decimal digit. -/
theorem natRender_mem (n : Nat) (c : Char) (hc : c ∈ natRender n) :
    ∃ d, d < 10 ∧ c = Nat.digitChar d := by
  rw [natRender] at hc
  by_cases h0 : n = 0
  · rw [if_pos h0] at hc
    simp at hc
    exact ⟨0, by norm_num, by rw [hc]; rfl⟩
  · rw [if_neg h0] at hc
    obtain ⟨d, hd, hdc⟩ := List.mem_map.mp hc
    refine ⟨d, ?_, hdc.symm⟩
    exact Nat.digits_lt_base (by norm_num) (List.mem_reverse.mp hd)

theorem natRender_ne_nil (n : Nat) : natRender n ≠ [] := by
  rw [natRender]
  by_cases h0 : n = 0
  · rw [if_pos h0]; simp
  · rw [if_neg h0]
    simp [Nat.digits_ne_nil_iff_ne_zero, h0]

theorem decValue_reverse (ds : List Nat) :
    decValue ds.reverse = Nat.ofDigits 10 ds := by
  induction ds with
  | nil => rfl
  | cons d ds ih =>
    rw [Nat.ofDigits_cons, ← ih]
    simp only [decValue, List.reverse_cons, List.foldl_append, List.foldl_cons, List.foldl_nil]
    omega

/-- `dropWhile` with a predicate false on every element. -/
theorem dropWhile_of_all_false (p : Char → Bool) (l : Str)
    (h : ∀ c ∈ l, p c = false) : l.dropWhile p = l := by
  cases l with
  | nil => rfl
  | cons c t =>
    rw [List.dropWhile_cons, h c (List.mem_cons_self c t)]
    simp

theorem jsTrim_eq_self (s : Str) (h : ∀ c ∈ s, isJsSpace c = false) :
    jsTrim s = s := by
  rw [jsTrim, dropWhile_of_all_false _ _ h,
      dropWhile_of_all_false _ _ (fun c hc => h c (List.mem_reverse.mp hc)),
      List.reverse_reverse]

theorem jsTrim_natRender (n : Nat) : jsTrim (natRender n) = natRender n := by
  refine jsTrim_eq_self _ (fun c hc => ?_)
  obtain ⟨d, hd, rfl⟩ := natRender_mem n c hc
  exact digitChar_not_space d hd

/-- The decoder leaves a string without `&` untouched. -/
theorem xmlUnescape_of_no_amp (s : Str) (h : ∀ c ∈ s, c ≠ '&') :
    xmlUnescape s = s := by
  induction s with
  | nil => rfl
  | cons c t ih =>
    rw [xmlUnescape_copy c t (h c (List.mem_cons_self c t)),
        ih (fun x hx => h x (List.mem_cons_of_mem c hx))]

theorem readRaw_natRender (n : Nat) : readRaw (natRender n) = natRender n := by
  rw [readRaw, jsTrim_natRender]
  refine xmlUnescape_of_no_amp _ (fun c hc => ?_)
  obtain ⟨d, hd, rfl⟩ := natRender_mem n c hc
  exact digitChar_not_amp d hd

theorem leadDigits_all (s : Str) (h : ∀ c ∈ s, (digitVal c).isSome) :
    leadDigits s = s.map (fun c => c.toNat - 48) := by
  induction s with
  | nil => rfl
  | cons c t ih =>
    rw [leadDigits]
    rcases hv : digitVal c with _ | d
    · have := h c (List.mem_cons_self c t)
      rw [hv] at this
      simp at this
    · rw [List.map_cons, ih (fun x hx => h x (List.mem_cons_of_mem c hx))]
      have : c.toNat - 48 = d := by
        rw [digitVal] at hv
        by_cases hb : '0' ≤ c ∧ c ≤ '9'
        · rw [if_pos hb] at hv
          injection hv
        · rw [if_neg hb] at hv
          injection hv
      rw [this]

/-- The digit list of a rendered numeral evaluates back to it. -/
theorem decValue_natRender (n : Nat) :
    decValue ((natRender n).map (fun c => c.toNat - 48)) = n := by
  by_cases h0 : n = 0
  · subst h0; rfl
  · have hmap : ∀ L : List Nat, (∀ d ∈ L, d < 10) →
        L.map (fun d => (Nat.digitChar d).toNat - 48) = L := by
      intro L hL
      induction L with
      | nil => rfl
      | cons d ds ihL =>
        rw [List.map_cons, digitChar_toNat d (hL d (List.mem_cons_self d ds)),
            ihL (fun x hx => hL x (List.mem_cons_of_mem d hx))]
    rw [natRender, if_neg h0, List.map_map]
    rw [show ((fun c => Char.toNat c - 48) ∘ Nat.digitChar) = fun d => (Nat.digitChar d).toNat - 48 from rfl]
    rw [List.map_reverse]
    rw [hmap _ (fun d hd => Nat.digits_lt_base (by norm_num) hd)]
    rw [decValue_reverse]
    exact Nat.ofDigits_digits 10 n

/-- `Number` recovers a rendered numeral. -/
theorem jsNumberOr0_natRender (n : Nat) :
    jsNumberOr0 (some (natRender n)) = n := by
  rw [jsNumberOr0]
  rw [if_pos ⟨natRender_ne_nil n, List.all_eq_true.mpr (fun c hc => by
    obtain ⟨d, hd, rfl⟩ := natRender_mem n c hc
    rw [digitVal_digitChar d hd]
    rfl)⟩]
  exact decValue_natRender n

/-- `parseInt` recovers a rendered numeral. -/
theorem jsParseInt_natRender (n : Nat) :
    jsParseInt (natRender n) = some (n : Int) := by
  rcases hr : natRender n with _ | ⟨c, t⟩
  · exact absurd hr (natRender_ne_nil n)
  · have hc : c ∈ natRender n := by rw [hr]; exact List.mem_cons_self c t
    obtain ⟨d, hd, rfl⟩ := natRender_mem n c hc
    rw [jsParseInt, if_neg (digitChar_not_sign d hd).1, if_neg (digitChar_not_sign d hd).2]
    have hall : ∀ x ∈ Nat.digitChar d :: t, (digitVal x).isSome := by
      intro x hx
      rw [← hr] at hx
      obtain ⟨d2, hd2, rfl⟩ := natRender_mem n x hx
      rw [digitVal_digitChar d2 hd2]
      rfl
    rw [leadDigits_all _ hall]
    rcases hm : (Nat.digitChar d :: t).map (fun c => c.toNat - 48) with _ | ⟨m, ms⟩
    · simp at hm
    · rw [hm]
      have h2 := decValue_natRender n
      rw [hr, hm] at h2
      show some ((decValue (m :: ms) : Nat) : Int) = some ((n : Nat) : Int)
      rw [h2]
theorem escChar_space (c : Char) (h : isJsSpace c = true) : escChar c = [c] := by
  rw [escChar.eq_def]
  split
  · exact absurd h (by decide)
  · exact absurd h (by decide)
  · exact absurd h (by decide)
  · exact absurd h (by decide)
  · exact absurd h (by decide)
  · rfl

theorem escChar_head (c : Char) :
    ∃ x xs, escChar c = x :: xs ∧ isJsSpace x = isJsSpace c := by
  rw [escChar.eq_def]
  split
  · exact ⟨_, _, rfl, by decide⟩
  · exact ⟨_, _, rfl, by decide⟩
  · exact ⟨_, _, rfl, by decide⟩
  · exact ⟨_, _, rfl, by decide⟩
  · exact ⟨_, _, rfl, by decide⟩
  · exact ⟨_, _, rfl, rfl⟩

theorem escChar_last (c : Char) :
    ∃ x xs, (escChar c).reverse = x :: xs ∧ isJsSpace x = isJsSpace c := by
  rw [escChar.eq_def]
  split
  · exact ⟨_, _, rfl, by decide⟩
  · exact ⟨_, _, rfl, by decide⟩
  · exact ⟨_, _, rfl, by decide⟩
  · exact ⟨_, _, rfl, by decide⟩
  · exact ⟨_, _, rfl, by decide⟩
  · exact ⟨_, _, rfl, rfl⟩

theorem xmlEscape_append (a b : Str) :
    xmlEscape (a ++ b) = xmlEscape a ++ xmlEscape b := by
  simp [xmlEscape]

theorem xmlEscape_cons (c : Char) (t : Str) :
    xmlEscape (c :: t) = escChar c ++ xmlEscape t := by
  simp [xmlEscape]

/-- Escaping commutes with stripping leading whitespace. -/
theorem dropWhile_xmlEscape (s : Str) :
    (xmlEscape s).dropWhile isJsSpace = xmlEscape (s.dropWhile isJsSpace) := by
  induction s with
  | nil => rfl
  | cons c t ih =>
    by_cases h : isJsSpace c = true
    · rw [xmlEscape_cons, escChar_space c h, List.singleton_append,
          List.dropWhile_cons, h, List.dropWhile_cons, h]
      simpa using ih
    · have hf : isJsSpace c = false := by revert h; cases isJsSpace c <;> simp
      obtain ⟨x, xs, hesc, hxsp⟩ := escChar_head c
      rw [xmlEscape_cons, hesc, List.cons_append, List.dropWhile_cons,
          show isJsSpace x = false from by rw [hxsp]; exact hf]
      rw [List.dropWhile_cons, hf]
      simp only [Bool.false_eq_true, if_false]
      rw [xmlEscape_cons, hesc, List.cons_append]

/-- Escaping commutes with stripping trailing whitespace. -/
theorem revDrop_xmlEscape (s : Str) :
    ((xmlEscape s).reverse.dropWhile isJsSpace).reverse
      = xmlEscape ((s.reverse.dropWhile isJsSpace).reverse) := by
  induction s using List.reverseRecOn with
  | nil => rfl
  | append_singleton us c ih =>
    by_cases h : isJsSpace c = true
    · rw [xmlEscape_append, show xmlEscape [c] = [c] from by
        rw [xmlEscape_cons, escChar_space c h]; rfl]
      rw [List.reverse_append, List.reverse_singleton, List.singleton_append,
          List.dropWhile_cons, h]
      rw [List.reverse_append, List.reverse_singleton, List.singleton_append,
          List.dropWhile_cons, h]
      exact ih
    · have hf : isJsSpace c = false := by revert h; cases isJsSpace c <;> simp
      obtain ⟨x, xs, hesc, hxsp⟩ := escChar_last c
      rw [xmlEscape_append, show xmlEscape [c] = escChar c from by
        rw [xmlEscape_cons]; simp [xmlEscape]]
      rw [List.reverse_append, hesc, List.cons_append, List.dropWhile_cons,
          show isJsSpace x = false from by rw [hxsp]; exact hf]
      rw [List.reverse_append, List.reverse_singleton, List.singleton_append,
          List.dropWhile_cons, hf]
      simp only [Bool.false_eq_true, if_false]
      rw [List.reverse_cons, List.reverse_append, List.reverse_reverse]
      rw [List.append_assoc]
      rw [show (xs.reverse ++ [x]) = escChar c from by
        rw [← List.reverse_cons, ← hesc, List.reverse_reverse]]
      rw [List.reverse_cons, List.reverse_reverse, xmlEscape_append]
      rw [show xmlEscape [c] = escChar c from by
        rw [xmlEscape_cons]; simp [xmlEscape]]

/-- Escaping commutes with JavaScript `trim`. -/
theorem jsTrim_xmlEscape (s : Str) :
    jsTrim (xmlEscape s) = xmlEscape (jsTrim s) := by
  rw [jsTrim, dropWhile_xmlEscape, jsTrim]
  exact revDrop_xmlEscape (s.dropWhile isJsSpace)

/-- Reading one escaped value back under `trimValues: true` trims the
original value. -/
theorem readText_eq (s : Str) : readText s = jsTrim s := by
  rw [readText, jsTrim_xmlEscape, xmlUnescape_xmlEscape]
theorem findDD_decomp (t : Str) : ∀ i, findDD t = some i →
    t = t.take i ++ '*' :: '*' :: t.drop (i + 2) := by
  induction t with
  | nil => intro i h; rw [show findDD [] = none from rfl] at h; cases h
  | cons c t2 ih =>
    intro i h
    cases t2 with
    | nil => rw [show findDD [c] = none from rfl] at h; cases h
    | cons d t3 =>
      rw [findDD] at h
      by_cases hcd : c = '*' ∧ d = '*'
      · rw [if_pos hcd] at h
        injection h with hi
        rw [← hi, hcd.1, hcd.2]
        rfl
      · rw [if_neg hcd] at h
        rcases hfd : findDD (d :: t3) with _ | j
        · rw [hfd] at h; exact Option.noConfusion h
        · rw [hfd] at h
          injection h with h
          rw [← h]
          rw [List.take_succ_cons, List.drop_succ_cons, List.cons_append]
          exact congrArg (c :: ·) (ih j hfd)

theorem findD_decomp (t : Str) : ∀ i, findD t = some i →
    t = t.take i ++ '*' :: t.drop (i + 1) := by
  induction t with
  | nil => intro i h; rw [show findD [] = none from rfl] at h; cases h
  | cons c t2 ih =>
    intro i h
    rw [findD] at h
    by_cases hc : c = '*'
    · rw [if_pos hc] at h
      injection h with hi
      rw [← hi, hc]
      rfl
    · rw [if_neg hc] at h
      rcases hfd : findD t2 with _ | j
      · rw [hfd] at h; exact Option.noConfusion h
      · rw [hfd] at h
        injection h with h
        rw [← h]
        rw [List.take_succ_cons, List.drop_succ_cons, List.cons_append]
        exact congrArg (c :: ·) (ih j hfd)

/-- A successful bold close splits its input around the closing
`**`. -/
theorem boldClose_decomp (v mid after : Str) (h : boldClose v = some (mid, after)) :
    v = mid ++ '*' :: '*' :: after ∧ mid ≠ [] := by
  cases v with
  | nil => rw [show boldClose [] = none from rfl] at h; cases h
  | cons c t =>
    rw [boldClose] at h
    rcases hfd : findDD t with _ | i
    · rw [hfd] at h; exact Option.noConfusion h
    · rw [hfd] at h
      injection h with h2
      injection h2 with hmid hafter
      refine ⟨?_, by rw [← hmid]; simp⟩
      rw [← hmid, ← hafter, List.cons_append]
      exact congrArg (c :: ·) (findDD_decomp t i hfd)

/-- A successful italic close splits its input around the closing
`*`. -/
theorem italClose_decomp (v mid after : Str) (h : italClose v = some (mid, after)) :
    v = mid ++ '*' :: after ∧ mid ≠ [] := by
  cases v with
  | nil => rw [show italClose [] = none from rfl] at h; cases h
  | cons c t =>
    rw [italClose] at h
    rcases hfd : findD t with _ | i
    · rw [hfd] at h; exact Option.noConfusion h
    · rw [hfd] at h
      injection h with h2
      injection h2 with hmid hafter
      refine ⟨?_, by rw [← hmid]; simp⟩
      rw [← hmid, ← hafter, List.cons_append]
      exact congrArg (c :: ·) (findD_decomp t i hfd)

theorem boldClose_len (v mid after : Str) (h : boldClose v = some (mid, after)) :
    after.length + 2 ≤ v.length := by
  obtain ⟨hv, _⟩ := boldClose_decomp v mid after h
  rw [hv]
  simp only [List.length_append, List.length_cons]
  omega

theorem italClose_len (v mid after : Str) (h : italClose v = some (mid, after)) :
    after.length + 1 ≤ v.length := by
  obtain ⟨hv, _⟩ := italClose_decomp v mid after h
  rw [hv]
  simp only [List.length_append, List.length_cons]
  omega

/-- Deleting every asterisk (what survives of a line in any case). -/
def unstar (l : Str) : Str := l.filter (fun c => c ≠ '*')

theorem unstar_append (a b : Str) : unstar (a ++ b) = unstar a ++ unstar b := by
  simp [unstar]

theorem unstar_star_cons (l : Str) : unstar ('*' :: l) = unstar l := by
  simp [unstar]
theorem mem_takeWhile_pred (p : Char → Bool) (l : Str) :
    ∀ x ∈ l.takeWhile p, p x = true := by
  induction l with
  | nil => intro x hx; cases hx
  | cons c t ih =>
    intro x hx
    rw [List.takeWhile_cons] at hx
    by_cases hp : p c = true
    · rw [if_pos hp] at hx
      rcases List.mem_cons.mp hx with rfl | hx2
      · exact hp
      · exact ih x hx2
    · rw [if_neg hp] at hx
      cases hx

theorem unstar_no_star (l : Str) (h : ∀ c ∈ l, (c ≠ '*' : Bool) = true) :
    unstar l = l :=
  List.filter_eq_self.mpr h

/-- The inline tokenizer deletes only asterisk characters: joining
the contents of the emitted tokens loses exactly some `*`s, nothing
else. -/
theorem scanRunsF_unstar (fuel : Nat) (l : Str) (hl : l.length < fuel) :
    unstar (((scanRunsF fuel l).map MdRun.content).flatten) = unstar l := by
  induction fuel, l using scanRunsF.induct with
  | case1 x => omega
  | case2 n => rfl
  | case3 f rest mid after hbold ih =>
    obtain ⟨hrest, _⟩ := boldClose_decomp rest mid after hbold
    have hlen := boldClose_len rest mid after hbold
    simp only [List.length_cons] at hl
    rw [show scanRunsF (f + 1) ('*' :: '*' :: rest)
        = ⟨mid, true, false⟩ :: scanRunsF f after from by
      rw [scanRunsF.eq_3, hbold]]
    rw [List.map_cons, List.flatten_cons]
    rw [unstar_append, ih (by omega)]
    rw [unstar_star_cons, unstar_star_cons, hrest, unstar_append,
        unstar_star_cons, unstar_star_cons]
  | case4 f rest hbold mid after hital ih =>
    obtain ⟨hrest, _⟩ := italClose_decomp ('*' :: rest) mid after hital
    have hlen := italClose_len ('*' :: rest) mid after hital
    simp only [List.length_cons] at hl hlen
    rw [show scanRunsF (f + 1) ('*' :: '*' :: rest)
        = ⟨mid, false, true⟩ :: scanRunsF f after from by
      rw [scanRunsF.eq_3, hbold, hital]]
    rw [List.map_cons, List.flatten_cons]
    rw [unstar_append, ih (by omega)]
    rw [unstar_star_cons, show ('*' :: rest : Str) = mid ++ '*' :: after from hrest,
        unstar_append, unstar_star_cons]
  | case5 f rest hbold hital ih =>
    simp only [List.length_cons] at hl
    rw [show scanRunsF (f + 1) ('*' :: '*' :: rest) = scanRunsF f ('*' :: rest) from by
      rw [scanRunsF.eq_3, hbold, hital]]
    rw [ih (by simp; omega)]
    simp [unstar_star_cons]
  | case6 f rest hne mid after hital ih =>
    obtain ⟨hrest, _⟩ := italClose_decomp rest mid after hital
    have hlen := italClose_len rest mid after hital
    simp only [List.length_cons] at hl
    rw [show scanRunsF (f + 1) ('*' :: rest)
        = ⟨mid, false, true⟩ :: scanRunsF f after from by
      rw [scanRunsF.eq_4 f rest hne, hital]]
    rw [List.map_cons, List.flatten_cons]
    rw [unstar_append, ih (by omega)]
    rw [unstar_star_cons, show (rest : Str) = mid ++ '*' :: after from hrest,
        unstar_append, unstar_star_cons]
  | case7 f rest hne hital ih =>
    simp only [List.length_cons] at hl
    rw [show scanRunsF (f + 1) ('*' :: rest) = scanRunsF f rest from by
      rw [scanRunsF.eq_4 f rest hne, hital]]
    rw [ih (by omega), unstar_star_cons]
  | case8 f c rest hcond hstar ih =>
    have hc : c ≠ '*' := fun hcc => hstar hcc
    simp only [List.length_cons] at hl
    rw [scanRunsF.eq_5 f c rest hcond hstar]
    rw [List.map_cons, List.flatten_cons]
    have hdrop : (c :: rest).dropWhile (fun x => decide (x ≠ '*'))
        = rest.dropWhile (fun x => decide (x ≠ '*')) := by
      rw [List.dropWhile_cons, if_pos (by simpa using hc)]
    rw [hdrop] at ih ⊢
    have hle : (rest.dropWhile (fun x => decide (x ≠ '*'))).length ≤ rest.length :=
      List.Sublist.length_le (List.dropWhile_sublist _)
    rw [unstar_append, ih (by omega)]
    rw [unstar_no_star ((c :: rest).takeWhile (fun x => decide (x ≠ '*')))
        (mem_takeWhile_pred _ _)]
    have hsplit : unstar (rest.takeWhile (fun x => decide (x ≠ '*')))
        ++ unstar (rest.dropWhile (fun x => decide (x ≠ '*'))) = unstar rest := by
      rw [← unstar_append, List.takeWhile_append_dropWhile]
    rw [unstar_no_star (rest.takeWhile (fun x => decide (x ≠ '*')))
        (mem_takeWhile_pred _ _)] at hsplit
    rw [List.takeWhile_cons, if_pos (by simpa using hc)]
    rw [show unstar (c :: rest) = c :: unstar rest from by
      rw [unstar, List.filter_cons, if_pos (by simpa using hc)]; rfl]
    rw [List.cons_append, hsplit]
theorem collectLines_nil_map (k ri : Nat) : collectLines [] ri k = ⟨[], [], []⟩ := by
  induction k generalizing ri with
  | zero => rfl
  | succ k2 ih =>
    rw [collectLines]
    rw [show outputMapGet [] ri = none from rfl]
    exact ih (ri + 1)

/-- Attaching from an empty region map changes nothing. -/
theorem attachLoop_nil_map (cells : List MlxCell) : ∀ ri, attachLoop [] ri cells = cells := by
  induction cells with
  | nil => intro ri; rfl
  | cons c cs ih =>
    intro ri
    obtain ⟨k, ct, o, f, t⟩ := c
    cases k with
    | markup => simp [attachLoop, ih]
    | code => simp [attachLoop, collectLines_nil_map, ih]

/-- A markup cell contributes nothing to the output document. -/
theorem buildOutputAux_markup (cnt : Nat) (c : BCell) (cs : List BCell)
    (h : c.kind = .markup) : buildOutputAux cnt (c :: cs) = buildOutputAux cnt cs := by
  rw [buildOutputAux, h]

theorem splitNl_no_nl (l : Str) (h : '\n' ∉ l) : splitNl l = [l] := by
  induction l with
  | nil => rfl
  | cons c t ih =>
    rw [splitNl, if_neg (by intro hc; exact h (hc ▸ List.mem_cons_self c t))]
    rw [ih (fun hm => h (List.mem_cons_of_mem c hm))]
    rfl

theorem splitNl_append (a b : Str) (h : '\n' ∉ a) :
    splitNl (a ++ '\n' :: b) = a :: splitNl b := by
  induction a with
  | nil => rw [List.nil_append, splitNl, if_pos rfl]
  | cons c t ih =>
    rw [List.cons_append, splitNl,
        if_neg (by intro hc; exact h (hc ▸ List.mem_cons_self c t))]
    rw [ih (fun hm => h (List.mem_cons_of_mem c hm))]
    rfl

/-- Reading back a built variable element recovers the variable with
trimmed name and value. -/
theorem addElem_libVar (n v : Str) (r c : Nat) (reg : MlxRegion) :
    addElem (libOutElem (.variable n v r c)) reg
      = ⟨⟨("variable").toList, jsTrim n, jsTrim v, r, c⟩ :: reg.vars, reg.figures, reg.text⟩ := by
  rw [libOutElem, addElem]
  rw [show elemType ⟨some (("variable").toList),
      some ⟨some (readText n), some (readText v), some (readRaw (natRender r)), some (readRaw (natRender c))⟩,
      none, none⟩ = ("variable").toList from by rw [elemType]; simp]
  rw [if_neg (by simp)]
  rw [if_neg (by simp)]
  simp [readText_eq, readRaw_natRender, jsNumberOr0_natRender]

/-- The number of section-break paragraphs in a built stream. -/
def countBreaks (ps : List BPara) : Nat := ps.count BPara.sectionBreak

/-- Whether a built paragraph carries the `code` style. -/
def isCodePara : BPara → Bool
  | .para s _ => s = ("code").toList
  | .sectionBreak => false

/-- The number of `code`-styled paragraphs in a built stream. -/
def codeParaCount (ps : List BPara) : Nat := (ps.filter isCodePara).length

theorem countBreaks_cellParas (c : MlxCell) : countBreaks (cellParas c) = 0 := by
  rw [countBreaks, List.count_eq_zero]
  intro hmem
  rw [cellParas] at hmem
  cases hk : c.kind with
  | code =>
    simp only [hk] at hmem
    obtain ⟨l, _, hl⟩ := List.mem_map.mp hmem
    cases hl
  | markup =>
    simp only [hk] at hmem
    obtain ⟨l, _, hl⟩ := List.mem_map.mp hmem
    rw [buildMarkupLine] at hl
    by_cases ht : jsTrim l = []
    · rw [if_pos ht] at hl
      cases hl
    · rw [if_neg ht] at hl
      cases hl

theorem countBreaks_append (a b : List BPara) :
    countBreaks (a ++ b) = countBreaks a + countBreaks b := by
  simp [countBreaks, List.count_append]

/-- A uniform-kind cell list builds with no section breaks. -/
theorem countBreaks_uniform (cells : List MlxCell) (k : CellKind)
    (h : ∀ c ∈ cells, c.kind = k) :
    ∀ prev, (prev = none ∨ prev = some k) →
    countBreaks (buildParasAux prev cells) = 0 := by
  induction cells with
  | nil => intro prev _; rfl
  | cons c cs ih =>
    intro prev hprev
    rw [buildParasAux]
    have hck : c.kind = k := h c (List.mem_cons_self c cs)
    rw [countBreaks_append, countBreaks_append]
    rw [show (if prev ≠ none ∧ prev ≠ some c.kind then [BPara.sectionBreak] else []) = [] from by
      rcases hprev with rfl | rfl
      · simp
      · rw [hck]; simp]
    rw [countBreaks_cellParas]
    rw [ih (fun x hx => h x (List.mem_cons_of_mem c hx)) (some c.kind) (Or.inr (by rw [hck]))]
    rfl
theorem parseMarkdownRuns_unstar (l : Str) :
    unstar (((parseMarkdownRuns l).map MdRun.content).flatten) = unstar l := by
  rw [parseMarkdownRuns]
  rcases hs : scanRunsF (l.length + 1) l with _ | ⟨r, rs⟩
  · simp
  · have h2 := scanRunsF_unstar (l.length + 1) l (by omega)
    rw [hs] at h2
    exact h2

theorem codeParaCount_map (lines : List Str) :
    codeParaCount (lines.map (fun l => BPara.para (("code").toList) [⟨false, false, true, l⟩]))
      = lines.length := by
  induction lines with
  | nil => rfl
  | cons a as iha =>
    rw [List.map_cons, codeParaCount, List.filter_cons]
    rw [show isCodePara (BPara.para (("code").toList) [⟨false, false, true, a⟩]) = true from rfl]
    rw [if_pos rfl, List.length_cons]
    rw [show (List.filter isCodePara (as.map (fun l => BPara.para (("code").toList) [⟨false, false, true, l⟩]))).length
        = codeParaCount (as.map (fun l => BPara.para (("code").toList) [⟨false, false, true, l⟩])) from rfl]
    rw [iha]
    rfl

theorem buildOutputAux_all_markup (pre : List BCell) (cnt : Nat) (cs : List BCell)
    (h : ∀ c ∈ pre, c.kind = .markup) :
    buildOutputAux cnt (pre ++ cs) = buildOutputAux cnt cs := by
  induction pre with
  | nil => rfl
  | cons p ps ih =>
    rw [List.cons_append,
        buildOutputAux_markup cnt p (ps ++ cs) (h p (List.mem_cons_self p ps))]
    exact ih (fun x hx => h x (List.mem_cons_of_mem p hx))

theorem buildOutputAux_markup_nil (post : List BCell) (cnt : Nat)
    (h : ∀ c ∈ post, c.kind = .markup) :
    buildOutputAux cnt post = ([], []) := by
  have := buildOutputAux_all_markup post cnt [] h
  rw [List.append_nil] at this
  rw [this]
  rfl
/-- The built output document for a single three-line code cell with
two variable outputs, surrounded by markup cells. -/
theorem buildOutput_threeLine (pre post : List BCell) (l1 l2 l3 : Str) (o1 o2 : MlxOutput)
    (hpre : ∀ c ∈ pre, c.kind = .markup) (hpost : ∀ c ∈ post, c.kind = .markup)
    (h1 : '\n' ∉ l1) (h2 : '\n' ∉ l2) (h3 : '\n' ∉ l3) :
    buildOutputXml (pre ++ ⟨.code, l1 ++ '\n' :: (l2 ++ '\n' :: l3), some ⟨[o1, o2], none, none⟩⟩ :: post)
      = ([.variable o1.name o1.value o1.rows o1.columns,
          .variable o2.name o2.value o2.rows o2.columns], [[], [], [0, 1]]) := by
  rw [buildOutputXml, buildOutputAux_all_markup pre 0 _ hpre]
  simp only [buildOutputAux]
  rw [show splitNl (l1 ++ '\n' :: (l2 ++ '\n' :: l3)) = [l1, l2, l3] from by
    rw [splitNl_append l1 _ h1, splitNl_append l2 _ h2, splitNl_no_nl l3 h3]]
  simp only [buildCellElems, List.map_cons, List.map_nil, Option.getD_none]
  rw [buildOutputAux_markup_nil post _ hpost]
  simp
  decide

/-- The two-element, two-index case of the region collector. -/
theorem collectRegion_two (e1 e2 : OutElemP) :
    collectRegion [e1, e2] [(0 : Int), (1 : Int)]
      = addElem e1 (addElem e2 ⟨[], [], []⟩) := by
  simp only [collectRegion]
  rw [if_neg (by simp), if_neg (by simp)]
  rfl

/-- Parsing the built output document of `buildOutput_threeLine`
yields one region-map entry, at region index 2, holding both
variables with trimmed names and values. -/
theorem parseOutput_threeLine (o1 o2 : MlxOutput) :
    parseOutputs (libOutDoc ([.variable o1.name o1.value o1.rows o1.columns,
          .variable o2.name o2.value o2.rows o2.columns], [[], [], [0, 1]]))
      = [(2, ⟨[⟨("variable").toList, jsTrim o1.name, jsTrim o1.value, o1.rows, o1.columns⟩,
               ⟨("variable").toList, jsTrim o2.name, jsTrim o2.value, o2.rows, o2.columns⟩], [], []⟩)] := by
  rw [libOutDoc]
  rw [if_neg (by simp), if_neg (by simp)]
  simp only [parseOutputs, outRoot, List.map_cons, List.map_nil, Option.getD_some]
  simp only [regionLoop]
  rw [show libOutRegion [] = ⟨some ⟨none⟩⟩ from by rw [libOutRegion, if_pos rfl]]
  rw [show extractIndexes (some ⟨none⟩) = [] from rfl]
  rw [show collectRegion [libOutElem (.variable o1.name o1.value o1.rows o1.columns),
        libOutElem (.variable o2.name o2.value o2.rows o2.columns)] [] = ⟨[], [], []⟩ from rfl]
  rw [if_neg (by simp), if_neg (by simp)]
  rw [show libOutRegion [0, 1]
      = ⟨some ⟨some [readRaw (natRender 0), readRaw (natRender 1)]⟩⟩ from by
    rw [libOutRegion, if_neg (by simp)]
    rfl]
  rw [show extractIndexes (some ⟨some [readRaw (natRender 0), readRaw (natRender 1)]⟩)
      = [(0 : Int), (1 : Int)] from by
    simp only [extractIndexes, List.map_cons, List.map_nil]
    rw [readRaw_natRender, readRaw_natRender]
    rw [jsParseInt_natRender, jsParseInt_natRender]
    rfl]
  rw [show collectRegion [libOutElem (.variable o1.name o1.value o1.rows o1.columns),
        libOutElem (.variable o2.name o2.value o2.rows o2.columns)] [(0 : Int), (1 : Int)]
      = ⟨[⟨("variable").toList, jsTrim o1.name, jsTrim o1.value, o1.rows, o1.columns⟩,
          ⟨("variable").toList, jsTrim o2.name, jsTrim o2.value, o2.rows, o2.columns⟩], [], []⟩ from by
    rw [collectRegion_two]
    rw [addElem_libVar, addElem_libVar]]
  rw [if_pos (by simp)]
  rfl
/-- The full document round trip under the two side conditions:
adjacent cells differ in kind, code lines are non-empty, and markup
lines individually survive the trip. -/
theorem docRoundtrip_eq (cells : List MlxCell) (halt : altCells cells = true)
    (hg : goodCells cells = true) :
    docRoundtrip cells = cells.map (fun c => mkCell c.kind c.content) := by
  rw [docRoundtrip, libDocument]
  rw [show parseDocument ⟨some ⟨some ((buildParas cells).map libPara)⟩⟩
      = parseParas ((buildParas cells).map libPara) from rfl]
  rw [parseParas, buildParas, parseLoop_buildParas cells none [] hg]
  rw [parseSem_eq cells [] halt (Or.inl rfl)]
  rw [show flushPending [] = [] from rfl, List.nil_append]
  exact mergeCells_preMerge cells halt

/-- A concrete one-paragraph document: a single markup paragraph whose
run holds the bare text `a*b`. -/
def starDoc : XmlDoc :=
  ⟨some ⟨some [⟨some ⟨some (some (("text").toList)), false⟩,
               some [⟨none, some (.str (("a*b").toList))⟩], none⟩]⟩⟩

/-- The code-paragraph count of a single built code cell is its line
count. -/
theorem codeParas_count (cnt : Str) :
    codeParaCount (buildParas [mkCell .code cnt]) = (splitNl cnt).length := by
  rw [buildParas, buildParasAux, buildParasAux]
  rw [if_neg (by simp)]
  simp only [List.append_nil, List.nil_append]
  rw [show cellParas (mkCell .code cnt)
      = (splitNl cnt).map (fun l => BPara.para (("code").toList) [⟨false, false, true, l⟩]) from rfl]
  exact codeParaCount_map (splitNl cnt)
/-- C1: the round-trip identity `parseDocument (buildDocumentXml cells)
= cells` does not hold for every cell list `parseDocument` can produce;
it holds once every markup line individually survives the trip and
every code line is non-empty (`goodCells`), for the alternating-kind
lists `parseDocument` produces (`altCells`).  The amended identity:
under those side conditions the round trip restores every cell's kind
and content. -/
theorem C1_roundtrip_amended (cells : List MlxCell) (halt : altCells cells = true)
    (hg : goodCells cells = true) :
    docRoundtrip cells = cells.map (fun c => mkCell c.kind c.content) :=
  docRoundtrip_eq cells halt hg

/-- C1 counterexample: `parseDocument` produces `[markup "a*b"]` from a
valid document, but the round trip of that list drops the unpaired
asterisk and returns `[markup "ab"]`. -/
theorem C1_counterexample :
    parseDocument starDoc = [mkCell .markup (("a*b").toList)] ∧
    docRoundtrip [mkCell .markup (("a*b").toList)] = [mkCell .markup (("ab").toList)] ∧
    mkCell .markup (("ab").toList) ≠ mkCell .markup (("a*b").toList) := by
  refine ⟨by decide, by decide, by decide⟩

/-- C1 witness: a two-cell notebook (a title line and a code line)
satisfies both side conditions and round-trips to itself. -/
theorem C1_roundtrip_witness :
    (altCells [mkCell .markup (("# Title").toList), mkCell .code (("x = 1").toList)] = true ∧
     goodCells [mkCell .markup (("# Title").toList), mkCell .code (("x = 1").toList)] = true) ∧
    docRoundtrip [mkCell .markup (("# Title").toList), mkCell .code (("x = 1").toList)]
      = [mkCell .markup (("# Title").toList), mkCell .code (("x = 1").toList)] := by
  refine ⟨⟨by decide, by decide⟩, ?_⟩
  have h := C1_roundtrip_amended
    [mkCell .markup (("# Title").toList), mkCell .code (("x = 1").toList)]
    (by decide) (by decide)
  rw [h]
  decide
/-- C2: the builder half holds — a code cell with `k` newline-separated
lines (including empty ones) emits exactly `k` `code`-styled
paragraphs — but the parser half is false in the code: an empty code
line builds an empty CDATA section, whose read-back object fails the
truthiness test in `getTextFromRun` and falls through to JavaScript
`String(t)`, so the cell `"a\n\nb"` round-trips to
`"a\n[object Object]\nb"` instead of itself (the repository's own
replica parser in `test-roundtrip.mjs` uses `!== undefined` here, and
the changelog records the intended fix). -/
theorem C2_line_count_code_bug :
    (∀ cnt : Str, codeParaCount (buildParas [mkCell .code cnt]) = (splitNl cnt).length) ∧
    docRoundtrip [mkCell .code (("a\n\nb").toList)]
      = [mkCell .code (("a\n[object Object]\nb").toList)] ∧
    ("a\n[object Object]\nb").toList ≠ ("a\n\nb").toList := by
  refine ⟨codeParas_count, by decide, by decide⟩
/-- C3: terminator-sequence escaping is lossless for every NON-EMPTY
code line: the CDATA escaping of `buildParagraph` is inverted exactly
by the XML lexer (`cdataLex (cdataEscape l ++ cdataTerm) = l` for all
`l`, in particular for lines containing literal occurrences of the
terminator), and `extractCode` recovers the exact original line from
the built paragraph.  The non-emptiness restriction is the amendment:
an empty line hits the empty-CDATA truthiness bug of
`getTextFromRun`. -/
theorem C3_escape_roundtrip (l : Str) (h : l ≠ []) :
    cdataLex (cdataEscape l ++ cdataTerm) = l ∧
    extractCode (libPara (.para (("code").toList) [⟨false, false, true, l⟩])) = l :=
  ⟨cdataLex_cdataEscape l, codePara_extract l h⟩

/-- C3 counterexample: the empty code line is not recovered — the
parser returns `[object Object]` for it. -/
theorem C3_counterexample :
    extractCode (libPara (.para (("code").toList) [⟨false, false, true, []⟩])) = jsObjectString ∧
    jsObjectString ≠ ([] : Str) := by
  refine ⟨by decide, by decide⟩

/-- C3 witness: the line `a]]>b`, which contains the raw-data
terminator, is escaped and recovered exactly. -/
theorem C3_escape_witness :
    (("a]]>b").toList ≠ ([] : Str)) ∧
    cdataLex (cdataEscape (("a]]>b").toList) ++ cdataTerm) = ("a]]>b").toList ∧
    extractCode (libPara (.para (("code").toList) [⟨false, false, true, ("a]]>b").toList⟩]))
      = ("a]]>b").toList := by
  refine ⟨by decide, ?_, ?_⟩
  · exact (C3_escape_roundtrip (("a]]>b").toList) (by decide)).1
  · exact (C3_escape_roundtrip (("a]]>b").toList) (by decide)).2
/-- C4: for a document whose only code cell spans 3 source lines and
carries a bundle of exactly 2 variable outputs, `buildOutputXml` emits
3 region entries in the XML (the first two with empty index lists, the
third referencing both variables) — but `parseOutputs` of that XML
does NOT yield a map with 3 region entries: regions whose buckets are
all empty produce no map entry, so the map has exactly ONE entry, at
region index 2, holding both variables (names and values trimmed). -/
theorem C4_region_accounting (pre post : List BCell) (l1 l2 l3 : Str) (o1 o2 : MlxOutput)
    (hpre : ∀ c ∈ pre, c.kind = .markup) (hpost : ∀ c ∈ post, c.kind = .markup)
    (h1 : '\n' ∉ l1) (h2 : '\n' ∉ l2) (h3 : '\n' ∉ l3) :
    buildOutputXml (pre ++ ⟨.code, l1 ++ '\n' :: (l2 ++ '\n' :: l3), some ⟨[o1, o2], none, none⟩⟩ :: post)
      = ([.variable o1.name o1.value o1.rows o1.columns,
          .variable o2.name o2.value o2.rows o2.columns], [[], [], [0, 1]]) ∧
    parseOutputs (libOutDoc (buildOutputXml
        (pre ++ ⟨.code, l1 ++ '\n' :: (l2 ++ '\n' :: l3), some ⟨[o1, o2], none, none⟩⟩ :: post)))
      = [(2, ⟨[⟨("variable").toList, jsTrim o1.name, jsTrim o1.value, o1.rows, o1.columns⟩,
               ⟨("variable").toList, jsTrim o2.name, jsTrim o2.value, o2.rows, o2.columns⟩], [], []⟩)] := by
  have hb := buildOutput_threeLine pre post l1 l2 l3 o1 o2 hpre hpost h1 h2 h3
  refine ⟨hb, ?_⟩
  rw [hb]
  exact parseOutput_threeLine o1 o2

/-- C4 counterexample: for a concrete 3-line code cell with 2 variable
outputs, the built region array has 3 entries but the parsed output
map has exactly 1 entry, not 3. -/
theorem C4_counterexample :
    (buildOutputXml [⟨.code, ("x").toList ++ '\n' :: (("y").toList ++ '\n' :: ("z").toList),
        some ⟨[⟨("double").toList, ("a").toList, ("1").toList, 1, 1⟩,
               ⟨("double").toList, ("b").toList, ("2").toList, 1, 1⟩], none, none⟩⟩]).2.length = 3 ∧
    (parseOutputs (libOutDoc (buildOutputXml
        [⟨.code, ("x").toList ++ '\n' :: (("y").toList ++ '\n' :: ("z").toList),
          some ⟨[⟨("double").toList, ("a").toList, ("1").toList, 1, 1⟩,
                 ⟨("double").toList, ("b").toList, ("2").toList, 1, 1⟩], none, none⟩⟩]))).length = 1 := by
  have hb := buildOutput_threeLine [] [] (("x").toList) (("y").toList) (("z").toList)
    ⟨("double").toList, ("a").toList, ("1").toList, 1, 1⟩
    ⟨("double").toList, ("b").toList, ("2").toList, 1, 1⟩
    (by simp) (by simp) (by decide) (by decide) (by decide)
  constructor
  · rw [show buildOutputXml [⟨.code, ("x").toList ++ '\n' :: (("y").toList ++ '\n' :: ("z").toList),
        some ⟨[⟨("double").toList, ("a").toList, ("1").toList, 1, 1⟩,
               ⟨("double").toList, ("b").toList, ("2").toList, 1, 1⟩], none, none⟩⟩]
      = buildOutputXml ([] ++ ⟨.code, ("x").toList ++ '\n' :: (("y").toList ++ '\n' :: ("z").toList),
        some ⟨[⟨("double").toList, ("a").toList, ("1").toList, 1, 1⟩,
               ⟨("double").toList, ("b").toList, ("2").toList, 1, 1⟩], none, none⟩⟩ :: []) from rfl, hb]
    rfl
  · rw [show buildOutputXml [⟨.code, ("x").toList ++ '\n' :: (("y").toList ++ '\n' :: ("z").toList),
        some ⟨[⟨("double").toList, ("a").toList, ("1").toList, 1, 1⟩,
               ⟨("double").toList, ("b").toList, ("2").toList, 1, 1⟩], none, none⟩⟩]
      = buildOutputXml ([] ++ ⟨.code, ("x").toList ++ '\n' :: (("y").toList ++ '\n' :: ("z").toList),
        some ⟨[⟨("double").toList, ("a").toList, ("1").toList, 1, 1⟩,
               ⟨("double").toList, ("b").toList, ("2").toList, 1, 1⟩], none, none⟩⟩ :: []) from rfl, hb]
    rw [parseOutput_threeLine]
    rfl

/-- C4 witness: the amended accounting at a concrete 3-line cell with
2 concrete variable outputs. -/
theorem C4_region_witness :
    ((∀ c ∈ ([] : List BCell), c.kind = .markup) ∧ '\n' ∉ ("x").toList) ∧
    parseOutputs (libOutDoc (buildOutputXml
        ([] ++ ⟨.code, ("x").toList ++ '\n' :: (("y").toList ++ '\n' :: ("z").toList),
          some ⟨[⟨("double").toList, ("a").toList, ("1").toList, 1, 1⟩,
                 ⟨("double").toList, ("b").toList, ("2").toList, 1, 1⟩], none, none⟩⟩ :: [])))
      = [(2, ⟨[⟨("variable").toList, jsTrim (("a").toList), jsTrim (("1").toList), 1, 1⟩,
               ⟨("variable").toList, jsTrim (("b").toList), jsTrim (("2").toList), 1, 1⟩], [], []⟩)] := by
  refine ⟨⟨by simp, by decide⟩, ?_⟩
  exact (C4_region_accounting [] [] (("x").toList) (("y").toList) (("z").toList)
    ⟨("double").toList, ("a").toList, ("1").toList, 1, 1⟩
    ⟨("double").toList, ("b").toList, ("2").toList, 1, 1⟩
    (by simp) (by simp) (by decide) (by decide) (by decide)).2
/-- C5 (modelled from the spec, the archive container being external
JSZip code): replacing the document entry of an archive that contains
it keeps the same entry names in the same order (hence the same count),
and every other entry is byte-for-byte identical (it is still a member
of the resulting archive unchanged). -/
theorem C5_archive_fidelity (entries : List ZipEntry) (docName : Str) (newBytes : List Nat)
    (h : docName ∈ entries.map ZipEntry.name) :
    (zipReplace entries docName newBytes).map ZipEntry.name = entries.map ZipEntry.name ∧
    (zipReplace entries docName newBytes).length = entries.length ∧
    ∀ e ∈ entries, e.name ≠ docName → e ∈ zipReplace entries docName newBytes := by
  rw [zipReplace, if_pos (List.elem_iff.mpr h)]
  refine ⟨?_, by rw [List.length_map], ?_⟩
  · rw [List.map_map]
    refine List.map_congr_left ?_
    intro e _
    by_cases hn : e.name = docName
    · simp [Function.comp, hn]
    · simp [Function.comp, hn]
  · intro e he hne
    exact List.mem_map.mpr ⟨e, he, by rw [if_neg hne]⟩

/-- C5 witness: a two-entry archive with the document entry replaced
keeps both entry names and the other entry's bytes. -/
theorem C5_archive_witness :
    (("matlab/document.xml").toList
        ∈ ([⟨("matlab/document.xml").toList, [1, 2]⟩, ⟨("other").toList, [3]⟩] : List ZipEntry).map ZipEntry.name) ∧
    (zipReplace [⟨("matlab/document.xml").toList, [1, 2]⟩, ⟨("other").toList, [3]⟩]
        (("matlab/document.xml").toList) [9]).map ZipEntry.name
      = ([⟨("matlab/document.xml").toList, [1, 2]⟩, ⟨("other").toList, [3]⟩] : List ZipEntry).map ZipEntry.name ∧
    (⟨("other").toList, [3]⟩ : ZipEntry)
      ∈ zipReplace [⟨("matlab/document.xml").toList, [1, 2]⟩, ⟨("other").toList, [3]⟩]
          (("matlab/document.xml").toList) [9] := by
  refine ⟨by decide, ?_, ?_⟩
  · exact (C5_archive_fidelity [⟨("matlab/document.xml").toList, [1, 2]⟩, ⟨("other").toList, [3]⟩]
      (("matlab/document.xml").toList) [9] (by decide)).1
  · exact (C5_archive_fidelity [⟨("matlab/document.xml").toList, [1, 2]⟩, ⟨("other").toList, [3]⟩]
      (("matlab/document.xml").toList) [9] (by decide)).2.2
      ⟨("other").toList, [3]⟩ (by decide) (by decide)
/-- C6: for every input document, the cell list `parseDocument`
returns never contains two consecutive code cells — the merge
post-pass joins any adjacent code cells. -/
theorem C6_no_adjacent_code (d : XmlDoc) :
    noAdjCode (parseDocument d) = true := by
  obtain ⟨b⟩ := d
  cases b with
  | none => rfl
  | some wb =>
    obtain ⟨ps⟩ := wb
    cases ps with
    | none => rfl
    | some l => exact mergeCells_noAdjCode (parseLoop l [])
/-- C7: when the mandatory document entry is present and the output
entry degenerates structurally — its XML is malformed (the parse
throws inside the `try`, modelled as `none`), or it parses to a
document whose region map is empty (missing root, missing arrays, all
regions empty) — `parseMlx` still succeeds and returns exactly the
cells of the document parse, the same result as when the output entry
is absent. -/
theorem C7_best_effort (d : XmlDoc) (o : Option OutXmlDoc)
    (hdeg : o = none ∨ ∃ od, o = some od ∧ parseOutputs od = []) :
    parseMlx ⟨some d, some o⟩ = .ok (parseDocument d) ∧
    parseMlx ⟨some d, some o⟩ = parseMlx ⟨some d, none⟩ := by
  have hok : parseMlx ⟨some d, some o⟩ = .ok (parseDocument d) := by
    rcases hdeg with rfl | ⟨od, rfl, hod⟩
    · rfl
    · show Except.ok (attachLoop (parseOutputs od) 0 (parseDocument d)) = _
      rw [hod, attachLoop_nil_map (parseDocument d) 0]
  exact ⟨hok, by rw [hok]; rfl⟩

/-- C7 witness: an output entry that parses to an empty output
document leaves the (empty-document) cell list untouched. -/
theorem C7_best_effort_witness :
    (some (⟨none, none⟩ : OutXmlDoc) = none ∨
      ∃ od, some (⟨none, none⟩ : OutXmlDoc) = some od ∧ parseOutputs od = []) ∧
    parseMlx ⟨some ⟨none⟩, some (some ⟨none, none⟩)⟩ = .ok (parseDocument ⟨none⟩) := by
  refine ⟨Or.inr ⟨⟨none, none⟩, rfl, rfl⟩, ?_⟩
  exact (C7_best_effort ⟨none⟩ (some ⟨none, none⟩) (Or.inr ⟨⟨none, none⟩, rfl, rfl⟩)).1

/-- C8: a container without the mandatory document entry makes
`parseMlx` fail with the distinguishable error message, while a
present document whose XML has no body, or a body with no paragraphs,
parses to the empty cell list and is not an error. -/
theorem C8_structural_error (z : MlxContainer) (d : XmlDoc)
    (hz : z.doc = none) (hd : d.body = none ∨ d.body = some ⟨none⟩) :
    parseMlx z = .error (("Invalid .mlx file: missing matlab/document.xml").toList) ∧
    parseMlx ⟨some d, none⟩ = .ok [] := by
  constructor
  · simp only [parseMlx, hz]
  · have hpd : parseDocument d = [] := by
      rcases hd with hb | hb
      · simp only [parseDocument, hb]
      · simp only [parseDocument, hb]
    show Except.ok (parseDocument d) = Except.ok []
    rw [hpd]

/-- C8 witness: the empty container errors; a document with no body
parses to no cells. -/
theorem C8_structural_witness :
    ((⟨none, none⟩ : MlxContainer).doc = none ∧ (⟨none⟩ : XmlDoc).body = none) ∧
    parseMlx ⟨none, none⟩ = .error (("Invalid .mlx file: missing matlab/document.xml").toList) ∧
    parseMlx ⟨some ⟨none⟩, none⟩ = .ok [] := by
  refine ⟨⟨rfl, rfl⟩, ?_⟩
  exact C8_structural_error ⟨none, none⟩ ⟨none⟩ rfl (Or.inl rfl)
/-- A leading section break adds one to the break count. -/
theorem countBreaks_cons_break (ps : List BPara) :
    countBreaks (BPara.sectionBreak :: ps) = countBreaks ps + 1 := by
  simp [countBreaks, List.count_cons]

/-- C9: building `[markup, code, markup]` (any contents) emits exactly
2 section-break paragraphs, and building any cell list of uniform kind
emits exactly 0. -/
theorem C9_section_breaks (m1 c2 m3 : Str) (cells : List MlxCell) (k : CellKind)
    (h : ∀ c ∈ cells, c.kind = k) :
    countBreaks (buildParas [mkCell .markup m1, mkCell .code c2, mkCell .markup m3]) = 2 ∧
    countBreaks (buildParas cells) = 0 := by
  constructor
  · rw [buildParas, buildParasAux, buildParasAux, buildParasAux, buildParasAux]
    rw [if_neg (by simp), if_pos (by exact ⟨by simp, by simp [mkCell]⟩),
        if_pos (by exact ⟨by simp, by simp [mkCell]⟩)]
    simp [countBreaks_append, countBreaks_cellParas, countBreaks_cons_break,
      show countBreaks [BPara.sectionBreak] = 1 from rfl,
      show countBreaks ([] : List BPara) = 0 from rfl]
  · exact countBreaks_uniform cells k h none (Or.inl rfl)

/-- C9 witness: the break counts at concrete contents, with a
uniform-kind two-cell code list. -/
theorem C9_section_breaks_witness :
    (∀ c ∈ [mkCell .code (("x").toList), mkCell .code (("y").toList)], c.kind = .code) ∧
    countBreaks (buildParas [mkCell .markup (("m").toList), mkCell .code (("c").toList),
        mkCell .markup (("m").toList)]) = 2 ∧
    countBreaks (buildParas [mkCell .code (("x").toList), mkCell .code (("y").toList)]) = 0 := by
  refine ⟨by decide, ?_, ?_⟩
  · exact (C9_section_breaks (("m").toList) (("c").toList) (("m").toList)
      [mkCell .code (("x").toList), mkCell .code (("y").toList)] .code (by decide)).1
  · exact (C9_section_breaks (("m").toList) (("c").toList) (("m").toList)
      [mkCell .code (("x").toList), mkCell .code (("y").toList)] .code (by decide)).2

/-- C10: the inline tokenizer drops unpaired asterisks when some other
token of the line matches — `a*b` tokenizes to the plain runs `a` and
`b`, so the asterisk reaches no run and the reconstructed markup line
is `ab` — while a line where nothing matches, such as a lone `*`, is
preserved whole by the single-plain-token fallback; in general the
emitted runs carry exactly the input minus its asterisks. -/
theorem C10_tokenizer_drops_stars :
    parseMarkdownRuns (("a*b").toList)
      = [⟨("a").toList, false, false⟩, ⟨("b").toList, false, false⟩] ∧
    parseMarkdownRuns (("*").toList) = [⟨("*").toList, false, false⟩] ∧
    (∀ l : Str, unstar (((parseMarkdownRuns l).map MdRun.content).flatten) = unstar l) ∧
    parsedMarkupLine (("a*b").toList) = ("ab").toList := by
  refine ⟨by decide, by decide, parseMarkdownRuns_unstar, by decide⟩
